import Mathlib

/-!
Verification of the `DisplayObjectContainer` scene-graph layer
(`src/unnamed/part_000` of the repository).

The JavaScript code mutates a heap of display objects.  We embed it as
explicit state passing over a `World`: a map from node identifiers to the
record of fields the container methods read and write (`parent`,
`children`, `stage`, `_interactive`).  The stage objects' `dirty` flags live
in a second map.  Methods that can throw return `Except (Err × World) _`;
the error carries the heap at the moment the exception is raised, so that
atomicity statements are expressible.  The two recursive stage-propagation
methods (`setStageReference`, `removeStageReference`) are given a fuel
parameter: running out of fuel (`Err.noFuel`) is the embedding's surrogate
for the nontermination the JavaScript would exhibit on a cyclic graph.

Bounds computation (`getBounds`) and the two render dispatch methods only
read per-child data supplied by dynamic dispatch into arbitrary display
objects (which are external collaborators), so they are embedded over
per-child views (`ChildView`, `RNode`) rather than over `World`.
-/

/-- The fields of a display object that the container methods touch.
`parent` and `stage` are object references in JS, encoded as node / stage
identifiers; `none` stands for `null`/`undefined`. -/
structure Node where
  parent : Option Nat
  children : List Nat
  stage : Option Nat
  interactive : Bool
  deriving DecidableEq, Repr

/-- The mutable heap: display objects indexed by identifier, plus the
`dirty` flag of each stage object. -/
structure World where
  nodes : Nat → Node
  dirty : Nat → Bool

/-- Heap update of a single display object. -/
def World.updNode (w : World) (i : Nat) (n : Node) : World :=
  { w with nodes := fun j => if j = i then n else w.nodes j }

/-- `stage.dirty = true`. -/
def World.setDirty (w : World) (s : Nat) : World :=
  { w with dirty := fun j => if j = s then true else w.dirty j }

/-- Errors thrown by the container methods.  `nullStage` is the TypeError a
JS engine raises on `this.stage.dirty` when `this.stage` is null; `noFuel`
stands for nontermination of the recursive stage propagation. -/
inductive Err where
  | outOfBounds
  | membership
  | range
  | nullStage
  | noFuel
  deriving DecidableEq, Repr

/-- `Array.prototype.indexOf` on a list of node ids: first index of `x`,
or `-1` when absent. -/
def jsIndexOf : List Nat → Nat → Int
  | [], _ => -1
  | a :: l, x =>
    if x = a then 0
    else if jsIndexOf l x = -1 then -1 else jsIndexOf l x + 1

/-- `Array.prototype.splice(i, 0, x)`: insert `x` at index `i`; JS clamps
`i` to the array length, so insertion past the end appends. -/
def jsSpliceInsert : List Nat → Nat → Nat → List Nat
  | l, 0, x => x :: l
  | [], _ + 1, x => [x]
  | a :: l, i + 1, x => a :: jsSpliceInsert l i x

mutual

/-- `DisplayObjectContainer.prototype.setStageReference` (lines 367-377):
`this.stage = stage; if (this._interactive) this.stage.dirty = true;`
then recurse into every child. -/
def setStageRef (fuel : Nat) (w : World) (self st : Nat) :
    Except (Err × World) World :=
  match fuel with
  | 0 => .error (.noFuel, w)
  | fuel + 1 =>
    let w1 := w.updNode self { w.nodes self with stage := some st }
    let w2 := if (w1.nodes self).interactive then w1.setDirty st else w1
    setStageRefChildren fuel w2 ((w2.nodes self).children) st
termination_by (fuel, 0)

/-- The `for` loop of `setStageReference` over the children. -/
def setStageRefChildren (fuel : Nat) (w : World) (cs : List Nat) (st : Nat) :
    Except (Err × World) World :=
  match cs with
  | [] => .ok w
  | c :: rest =>
    match setStageRef fuel w c st with
    | .error e => .error e
    | .ok w' => setStageRefChildren fuel w' rest st
termination_by (fuel, cs.length + 1)

end

mutual

/-- `DisplayObjectContainer.prototype.removeStageReference` (lines
383-393): recurse into children first, then
`if (this._interactive) this.stage.dirty = true;` — which dereferences
null when `this.stage` is null — then `this.stage = null`. -/
def removeStageRef (fuel : Nat) (w : World) (self : Nat) :
    Except (Err × World) World :=
  match fuel with
  | 0 => .error (.noFuel, w)
  | fuel + 1 =>
    match removeStageRefChildren fuel w ((w.nodes self).children) with
    | .error e => .error e
    | .ok w1 =>
      if (w1.nodes self).interactive then
        match (w1.nodes self).stage with
        | none => .error (.nullStage, w1)
        | some st =>
          let w2 := w1.setDirty st
          .ok (w2.updNode self { w2.nodes self with stage := none })
      else
        .ok (w1.updNode self { w1.nodes self with stage := none })
termination_by (fuel, 0)

/-- The `for` loop of `removeStageReference` over the children. -/
def removeStageRefChildren (fuel : Nat) (w : World) (cs : List Nat) :
    Except (Err × World) World :=
  match cs with
  | [] => .ok w
  | c :: rest =>
    match removeStageRef fuel w c with
    | .error e => .error e
    | .ok w' => removeStageRefChildren fuel w' rest
termination_by (fuel, cs.length + 1)

end

/-- `getChildAt(index)` (lines 181-187): throws when
`index < 0 || index >= this.children.length`, else returns
`this.children[index]`.  Pure, so no world in the result. -/
def getChildAt (w : World) (self : Nat) (index : Int) : Except Err Nat :=
  let cs := (w.nodes self).children
  if index < 0 ∨ (cs.length : Int) ≤ index then .error .outOfBounds
  else .ok (cs.getD index.toNat 0)

/-- `getChildIndex(child)` (lines 148-156): `indexOf`, throwing when the
result is `-1`. -/
def getChildIndex (w : World) (self child : Nat) : Except Err Int :=
  let index := jsIndexOf (w.nodes self).children child
  if index = -1 then .error .membership else .ok index

/-- `removeChildAt(index)` (lines 211-222): fetch the child via
`getChildAt`, clear its stage reference when this container has one,
null its parent, and splice it out. -/
def removeChildAt (fuel : Nat) (w : World) (self : Nat) (index : Int) :
    Except (Err × World) (Nat × World) :=
  match getChildAt w self index with
  | .error e => .error (e, w)
  | .ok child =>
    let step1 : Except (Err × World) World :=
      if (w.nodes self).stage.isSome then removeStageRef fuel w child
      else .ok w
    match step1 with
    | .error e => .error e
    | .ok w1 =>
      let w2 := w1.updNode child { w1.nodes child with parent := none }
      let w3 := w2.updNode self
        { w2.nodes self with
          children := (w2.nodes self).children.eraseIdx index.toNat }
      .ok (child, w3)

/-- `removeChild(child)` (lines 195-203): returns `undefined` (here
`none`) when the child is not a member, else delegates to
`removeChildAt`. -/
def removeChild (fuel : Nat) (w : World) (self child : Nat) :
    Except (Err × World) (Option Nat × World) :=
  let index := jsIndexOf (w.nodes self).children child
  if index = -1 then .ok (none, w)
  else
    match removeChildAt fuel w self index with
    | .error e => .error e
    | .ok (c, w') => .ok (some c, w')

/-- `addChildAt(child, index)` (lines 99-118): bounds check first
(`index >= 0 && index <= this.children.length`), then detach from any
previous parent, set the parent back-reference, splice in, and propagate
this container's stage reference if it has one. -/
def addChildAt (fuel : Nat) (w : World) (self child : Nat) (index : Int) :
    Except (Err × World) (Nat × World) :=
  if 0 ≤ index ∧ index ≤ ((w.nodes self).children.length : Int) then
    let step1 : Except (Err × World) World :=
      match (w.nodes child).parent with
      | some p =>
        match removeChild fuel w p child with
        | .error e => .error e
        | .ok (_, w') => .ok w'
      | none => .ok w
    match step1 with
    | .error e => .error e
    | .ok w1 =>
      let w2 := w1.updNode child { w1.nodes child with parent := some self }
      let w3 := w2.updNode self
        { w2.nodes self with
          children :=
            jsSpliceInsert (w2.nodes self).children index.toNat child }
      match (w3.nodes self).stage with
      | some st =>
        match setStageRef fuel w3 child st with
        | .error e => .error e
        | .ok w4 => .ok (child, w4)
      | none => .ok (child, w3)
  else .error (.outOfBounds, w)

/-- `addChild(child)` (lines 88-90): append. -/
def addChild (fuel : Nat) (w : World) (self child : Nat) :
    Except (Err × World) (Nat × World) :=
  addChildAt fuel w self child ((w.nodes self).children.length : Int)

/-- `swapChildren(child, child2)` (lines 126-140): no-op when the two are
identical; both must be members (`getChildIndex` throws otherwise; the
explicit `index < 0` re-check is dead code but kept); then the two slots
are exchanged in place. -/
def swapChildren (w : World) (self child child2 : Nat) :
    Except (Err × World) World :=
  if child = child2 then .ok w
  else
    match getChildIndex w self child with
    | .error e => .error (e, w)
    | .ok index1 =>
      match getChildIndex w self child2 with
      | .error e => .error (e, w)
      | .ok index2 =>
        if index1 < 0 ∨ index2 < 0 then .error (.membership, w)
        else
          let cs := (w.nodes self).children
          .ok (w.updNode self
            { w.nodes self with
              children := (cs.set index1.toNat child2).set index2.toNat child })

/-- `setChildIndex(child, index)` (lines 164-173): range check, membership
check via `getChildIndex`, then splice out of the old slot and splice into
the new one. -/
def setChildIndex (w : World) (self child : Nat) (index : Int) :
    Except (Err × World) World :=
  if index < 0 ∨ ((w.nodes self).children.length : Int) ≤ index then
    .error (.outOfBounds, w)
  else
    match getChildIndex w self child with
    | .error e => .error (e, w)
    | .ok currentIndex =>
      let cs := (w.nodes self).children
      let cs1 := cs.eraseIdx currentIndex.toNat
      .ok (w.updNode self
        { w.nodes self with children := jsSpliceInsert cs1 index.toNat child })

/-- The loop of `removeChildren` over the spliced-out slice: clear the
stage reference of each removed child when this container has a stage,
then null its parent. -/
def removeChildrenLoop (fuel : Nat) (w : World) (self : Nat) :
    List Nat → Except (Err × World) World
  | [] => .ok w
  | child :: rest =>
    let step1 : Except (Err × World) World :=
      if (w.nodes self).stage.isSome then removeStageRef fuel w child
      else .ok w
    match step1 with
    | .error e => .error e
    | .ok w1 =>
      let w2 := w1.updNode child { w1.nodes child with parent := none }
      removeChildrenLoop fuel w2 self rest

/-- `removeChildren(beginIndex, endIndex)` (lines 230-256):
`begin = beginIndex || 0`, `end` defaults to the length, `range = end -
begin`; splice out `range` items from `begin` when `range > 0 && range <=
end` (note: the check really is `range <= end`, equivalently `begin >= 0`,
not `end <= length`); return `[]` when `range == 0` on an empty container;
throw a RangeError otherwise.  `splice(begin, range)` clamps both its
arguments, which the `take`/`drop` formulation reproduces. -/
def removeChildren (fuel : Nat) (w : World) (self : Nat)
    (beginIndex endIndex : Option Int) :
    Except (Err × World) (List Nat × World) :=
  let cs := (w.nodes self).children
  let b := beginIndex.getD 0
  let e := endIndex.getD (cs.length : Int)
  let range := e - b
  if 0 < range ∧ range ≤ e then
    let removed := (cs.drop b.toNat).take range.toNat
    let w1 := w.updNode self
      { w.nodes self with
        children := cs.take b.toNat ++ cs.drop (b.toNat + range.toNat) }
    match removeChildrenLoop fuel w1 self removed with
    | .error e => .error e
    | .ok w2 => .ok (removed, w2)
  else if range = 0 ∧ cs.length = 0 then .ok ([], w)
  else .error (.range, w)

/-- The rectangle value type `(x, y, width, height)`. -/
structure Rect where
  x : ℚ
  y : ℚ
  width : ℚ
  height : ℚ
  deriving DecidableEq, Repr

/-- What `getBounds` reads off each direct child through dynamic dispatch:
its `visible` flag and the rectangle its own `getBounds()` call returns.
The children themselves are external display objects. -/
structure ChildView where
  visible : Bool
  bounds : Rect
  deriving DecidableEq, Repr

/-- The result of `getBounds`: either the shared sentinel
`math.Rectangle.EMPTY` (a distinguished object, returned by reference) or
the container's own `_bounds` rectangle filled with computed values.  The
sum distinguishes the sentinel from any freshly computed rectangle, which
is how object identity shows up in the embedding. -/
inductive BoundsRes where
  | empty
  | rect (r : Rect)
  deriving DecidableEq, Repr

/-- The ternary `m < x ? m : x` of the `getBounds` loop; `none` encodes the
`Infinity` the accumulator starts at (for which the comparison is false,
so the child value is taken). -/
def jsMin (m : Option ℚ) (x : ℚ) : ℚ :=
  match m with
  | none => x
  | some v => if v < x then v else x

/-- The ternary `m > x ? m : x`; `none` encodes the initial `-Infinity`. -/
def jsMax (m : Option ℚ) (x : ℚ) : ℚ :=
  match m with
  | none => x
  | some v => if v > x then v else x

/-- The running state of the `getBounds` loop: the four extrema (with
`none` for their infinite initial values) and the `childVisible` flag. -/
structure GBAcc where
  minX : Option ℚ
  minY : Option ℚ
  maxX : Option ℚ
  maxY : Option ℚ
  childVisible : Bool
  deriving DecidableEq, Repr

/-- One iteration of the `getBounds` loop (lines 306-325): invisible
children are skipped; otherwise the child's bounds update the extrema via
`childMaxX = childBounds.width + childBounds.x` etc. -/
def gbStep (acc : GBAcc) (c : ChildView) : GBAcc :=
  if c.visible = false then acc
  else
    { minX := some (jsMin acc.minX c.bounds.x)
      minY := some (jsMin acc.minY c.bounds.y)
      maxX := some (jsMax acc.maxX (c.bounds.width + c.bounds.x))
      maxY := some (jsMax acc.maxY (c.bounds.height + c.bounds.y))
      childVisible := true }

/-- `getBounds()` (lines 287-340): the empty sentinel when there are no
children; otherwise run the loop; the sentinel again when no child was
visible; else `_bounds` set to `(minX, minY, maxX - minX, maxY - minY)`.
When `childVisible` is true all four accumulators are `some`, so the
`getD 0` defaults are never the value used. -/
def getBounds (children : List ChildView) : BoundsRes :=
  if children.length = 0 then .empty
  else
    let acc := children.foldl gbStep ⟨none, none, none, none, false⟩
    if acc.childVisible = false then .empty
    else
      .rect
        { x := acc.minX.getD 0
          y := acc.minY.getD 0
          width := acc.maxX.getD 0 - acc.minX.getD 0
          height := acc.maxY.getD 0 - acc.minY.getD 0 }

/-- The `width` setter (lines 40-53): `width = this.getLocalBounds().width`
is passed in as `lbWidth`; the setter writes `value / width` to `scale.x`
unless the local-bounds width is `0`, in which case it writes `1`.  The
returned value is the new `scale.x`. -/
def widthSetScaleX (lbWidth value : ℚ) : ℚ :=
  if lbWidth ≠ 0 then value / lbWidth else 1

/-- The `height` setter (lines 66-78), returning the new `scale.y`. -/
def heightSetScaleY (lbHeight value : ℚ) : ℚ :=
  if lbHeight ≠ 0 then value / lbHeight else 1

/-- The fields the two render dispatch methods read.  `children` is the
list of child identifiers; dispatching into a child is recorded as a trace
event rather than expanded, since the children are arbitrary external
display objects. -/
structure RNode where
  visible : Bool
  alpha : ℚ
  cacheAsBitmap : Bool
  hasMask : Bool
  hasFilters : Bool
  children : List Nat
  deriving DecidableEq, Repr

/-- Observable effects of a render dispatch: calls into the render
session's batch / filter-stack / mask-stack controllers, dispatches into
children, and the cached-bitmap path. -/
inductive REv where
  | flush
  | pushFilter
  | popFilter
  | stopBatch
  | startBatch
  | pushMask
  | popMask
  | renderChild (i : Nat)
  | renderCachedSprite
  deriving DecidableEq, Repr

/-- `_renderWebGL(renderSession)` (lines 401-449) as the trace of session
calls and child dispatches it performs.  Early return when
`!this.visible || this.alpha <= 0`. -/
def renderWebGL (n : RNode) : List REv :=
  if n.visible = false ∨ n.alpha ≤ 0 then []
  else if n.cacheAsBitmap then [.renderCachedSprite]
  else if n.hasMask ∨ n.hasFilters then
    (if n.hasFilters then [.flush, .pushFilter] else []) ++
    (if n.hasMask then [.stopBatch, .pushMask, .startBatch] else []) ++
    n.children.map .renderChild ++
    [.stopBatch] ++
    (if n.hasMask then [.popMask] else []) ++
    (if n.hasFilters then [.popFilter] else []) ++
    [.startBatch]
  else n.children.map .renderChild

/-- `_renderCanvas(renderSession)` (lines 457-477) as a trace.  Early
return when `this.visible === false || this.alpha === 0`. -/
def renderCanvas (n : RNode) : List REv :=
  if n.visible = false ∨ n.alpha = 0 then []
  else if n.cacheAsBitmap then [.renderCachedSprite]
  else
    (if n.hasMask then [.pushMask] else []) ++
    n.children.map .renderChild ++
    (if n.hasMask then [.popMask] else [])

/-! ## Basic lemmas about the heap and the JS array helpers -/

@[simp]
theorem World.nodes_updNode (w : World) (i : Nat) (n : Node) (j : Nat) :
    (w.updNode i n).nodes j = if j = i then n else w.nodes j := rfl

@[simp]
theorem World.nodes_setDirty (w : World) (s : Nat) (j : Nat) :
    (w.setDirty s).nodes j = w.nodes j := rfl

theorem jsSpliceInsert_perm (l : List Nat) (i x : Nat) :
    (jsSpliceInsert l i x).Perm (x :: l) := by
  induction l generalizing i with
  | nil => cases i <;> simp [jsSpliceInsert]
  | cons a t ih =>
    cases i with
    | zero => simp [jsSpliceInsert]
    | succ i =>
      simp only [jsSpliceInsert]
      exact ((ih i).cons a).trans (List.Perm.swap x a t)

theorem jsSpliceInsert_length (l : List Nat) (i x : Nat) :
    (jsSpliceInsert l i x).length = l.length + 1 :=
  (jsSpliceInsert_perm l i x).length_eq

theorem mem_jsSpliceInsert (l : List Nat) (i x y : Nat) :
    y ∈ jsSpliceInsert l i x ↔ y = x ∨ y ∈ l := by
  rw [(jsSpliceInsert_perm l i x).mem_iff]; simp

theorem jsSpliceInsert_nodup (l : List Nat) (i x : Nat)
    (hl : l.Nodup) (hx : x ∉ l) : (jsSpliceInsert l i x).Nodup :=
  ((jsSpliceInsert_perm l i x).nodup_iff).2 (List.nodup_cons.2 ⟨hx, hl⟩)

theorem jsSpliceInsert_get (l : List Nat) (i x : Nat) (h : i ≤ l.length) :
    (jsSpliceInsert l i x).get? i = some x := by
  induction l generalizing i with
  | nil =>
    have hi : i = 0 := Nat.le_zero.1 h
    subst hi
    simp [jsSpliceInsert]
  | cons a t ih =>
    cases i with
    | zero => simp [jsSpliceInsert]
    | succ i =>
      simp only [jsSpliceInsert, List.get?_cons_succ]
      exact ih i (Nat.le_of_succ_le_succ h)

theorem jsIndexOf_cases (l : List Nat) (x : Nat) :
    jsIndexOf l x = -1 ∨ 0 ≤ jsIndexOf l x := by
  induction l with
  | nil => simp [jsIndexOf]
  | cons a t ih =>
    by_cases hxa : x = a
    · simp [jsIndexOf, hxa]
    · by_cases ht : jsIndexOf t x = -1
      · simp [jsIndexOf, hxa, ht]
      · simp only [jsIndexOf, if_neg hxa, if_neg ht]
        rcases ih with h | h
        · exact absurd h ht
        · omega

theorem jsIndexOf_eq_neg_one (l : List Nat) (x : Nat) :
    jsIndexOf l x = -1 ↔ x ∉ l := by
  induction l with
  | nil => simp [jsIndexOf]
  | cons a t ih =>
    by_cases hxa : x = a
    · simp [jsIndexOf, hxa]
    · by_cases ht : jsIndexOf t x = -1
      · simp [jsIndexOf, hxa, ht, ih.1 ht]
      · have hmem : x ∈ t := by
          by_contra hc
          exact ht (ih.2 hc)
        simp only [jsIndexOf, if_neg hxa, if_neg ht]
        constructor
        · intro h
          rcases jsIndexOf_cases t x with h' | h'
          · exact absurd h' ht
          · omega
        · intro h
          exact absurd (List.mem_cons.2 (Or.inr hmem)) h

theorem jsIndexOf_nonneg (l : List Nat) (x : Nat) (h : x ∈ l) :
    0 ≤ jsIndexOf l x := by
  induction l with
  | nil => cases h
  | cons a t ih =>
    by_cases hxa : x = a
    · simp [jsIndexOf, hxa]
    · have hmem : x ∈ t := by
        cases List.mem_cons.1 h with
        | inl h' => exact absurd h' hxa
        | inr h' => exact h'
      have ht : jsIndexOf t x ≠ -1 := fun hc => (jsIndexOf_eq_neg_one t x).1 hc hmem
      have := ih hmem
      simp only [jsIndexOf, if_neg hxa, if_neg ht]
      omega

theorem jsIndexOf_lt_length (l : List Nat) (x : Nat) (h : x ∈ l) :
    jsIndexOf l x < (l.length : Int) := by
  induction l with
  | nil => cases h
  | cons a t ih =>
    by_cases hxa : x = a
    · simp [jsIndexOf, hxa]
    · have hmem : x ∈ t := by
        cases List.mem_cons.1 h with
        | inl h' => exact absurd h' hxa
        | inr h' => exact h'
      have ht : jsIndexOf t x ≠ -1 := fun hc => (jsIndexOf_eq_neg_one t x).1 hc hmem
      have := ih hmem
      simp only [jsIndexOf, if_neg hxa, if_neg ht, List.length_cons]
      push_cast
      omega

theorem jsIndexOf_get (l : List Nat) (x : Nat) (h : x ∈ l) :
    l.get? (jsIndexOf l x).toNat = some x := by
  induction l with
  | nil => cases h
  | cons a t ih =>
    by_cases hxa : x = a
    · simp [jsIndexOf, hxa]
    · have hmem : x ∈ t := by
        cases List.mem_cons.1 h with
        | inl h' => exact absurd h' hxa
        | inr h' => exact h'
      have ht : jsIndexOf t x ≠ -1 := fun hc => (jsIndexOf_eq_neg_one t x).1 hc hmem
      have hnn := jsIndexOf_nonneg t x hmem
      simp only [jsIndexOf, if_neg hxa, if_neg ht]
      have htn : (jsIndexOf t x + 1).toNat = (jsIndexOf t x).toNat + 1 := by omega
      rw [htn, List.get?_cons_succ]
      exact ih hmem

theorem jsIndexOf_of_get (l : List Nat) (x : Nat) (j : Nat)
    (hl : l.Nodup) (hj : l.get? j = some x) : jsIndexOf l x = (j : Int) := by
  induction l generalizing j with
  | nil => simp at hj
  | cons a t ih =>
    rcases List.nodup_cons.1 hl with ⟨hat, htn⟩
    cases j with
    | zero =>
      simp only [List.get?_cons_zero, Option.some.injEq] at hj
      simp [jsIndexOf, hj.symm]
    | succ j =>
      simp only [List.get?_cons_succ] at hj
      have hmem : x ∈ t := List.get?_mem hj
      have hxa : x ≠ a := fun hc => hat (hc ▸ hmem)
      have ht : jsIndexOf t x ≠ -1 :=
        fun hc => (jsIndexOf_eq_neg_one t x).1 hc hmem
      have hih := ih j htn hj
      simp only [jsIndexOf, if_neg hxa, if_neg ht, hih]
      push_cast
      ring

/-! ## The stage-propagation methods only touch `stage` fields and `dirty`
flags: every node's `parent` and `children` are left intact. -/

/-- Two heaps agreeing on every node's `parent` and `children`. -/
def StructEq (w w' : World) : Prop :=
  ∀ i, (w'.nodes i).parent = (w.nodes i).parent ∧
    (w'.nodes i).children = (w.nodes i).children

theorem StructEq.refl (w : World) : StructEq w w := fun _ => ⟨rfl, rfl⟩

theorem StructEq.trans {w1 w2 w3 : World}
    (h12 : StructEq w1 w2) (h23 : StructEq w2 w3) : StructEq w1 w3 :=
  fun i => ⟨(h23 i).1.trans (h12 i).1, (h23 i).2.trans (h12 i).2⟩

theorem structEq_updNode_stage (w : World) (i : Nat) (st : Option Nat) :
    StructEq w (w.updNode i { w.nodes i with stage := st }) := by
  intro j
  by_cases hji : j = i <;> simp [World.updNode, hji]

theorem structEq_setDirty (w : World) (s : Nat) :
    StructEq w (w.setDirty s) := fun _ => ⟨rfl, rfl⟩

theorem setStageRef_structEq :
    ∀ fuel, (∀ w self st w', setStageRef fuel w self st = .ok w' →
        StructEq w w') ∧
      (∀ cs w st w', setStageRefChildren fuel w cs st = .ok w' →
        StructEq w w') := by
  intro fuel
  induction fuel with
  | zero =>
    constructor
    · intro w self st w' h
      simp [setStageRef] at h
    · intro cs
      induction cs with
      | nil =>
        intro w st w' h
        simp only [setStageRefChildren] at h
        cases h
        exact StructEq.refl _
      | cons c rest ih =>
        intro w st w' h
        simp [setStageRefChildren, setStageRef] at h
  | succ fuel ihf =>
    have hone : ∀ w self st w', setStageRef (fuel + 1) w self st = .ok w' →
        StructEq w w' := by
      intro w self st w' h
      simp only [setStageRef] at h
      set w1 := w.updNode self { w.nodes self with stage := some st } with hw1
      have h01 : StructEq w w1 := structEq_updNode_stage w self (some st)
      set w2 := if (w1.nodes self).interactive then w1.setDirty st else w1
        with hw2
      have h12 : StructEq w1 w2 := by
        rw [hw2]
        split
        · exact structEq_setDirty w1 st
        · exact StructEq.refl w1
      exact (h01.trans h12).trans (ihf.2 _ _ _ _ h)
    refine ⟨hone, ?_⟩
    intro cs
    induction cs with
    | nil =>
      intro w st w' h
      simp only [setStageRefChildren] at h
      cases h
      exact StructEq.refl _
    | cons c rest ih =>
      intro w st w' h
      simp only [setStageRefChildren] at h
      rcases hm : setStageRef (fuel + 1) w c st with e | wmid
      · rw [hm] at h
        simp at h
      · rw [hm] at h
        simp only at h
        exact (hone _ _ _ _ hm).trans (ih _ _ _ h)

theorem removeStageRef_structEq :
    ∀ fuel, (∀ w self w', removeStageRef fuel w self = .ok w' →
        StructEq w w') ∧
      (∀ cs w w', removeStageRefChildren fuel w cs = .ok w' →
        StructEq w w') := by
  intro fuel
  induction fuel with
  | zero =>
    constructor
    · intro w self w' h
      simp [removeStageRef] at h
    · intro cs
      induction cs with
      | nil =>
        intro w w' h
        simp only [removeStageRefChildren] at h
        cases h
        exact StructEq.refl _
      | cons c rest ih =>
        intro w w' h
        simp [removeStageRefChildren, removeStageRef] at h
  | succ fuel ihf =>
    have hone : ∀ w self w', removeStageRef (fuel + 1) w self = .ok w' →
        StructEq w w' := by
      intro w self w' h
      simp only [removeStageRef] at h
      rcases hm : removeStageRefChildren fuel w ((w.nodes self).children)
          with e | w1
      · rw [hm] at h
        simp at h
      · rw [hm] at h
        simp only at h
        have h01 : StructEq w w1 := ihf.2 _ _ _ hm
        by_cases hint : (w1.nodes self).interactive
        · rw [if_pos hint] at h
          rcases hst : (w1.nodes self).stage with _ | st
          · rw [hst] at h
            simp at h
          · rw [hst] at h
            simp only [Except.ok.injEq] at h
            subst h
            exact h01.trans ((structEq_setDirty w1 st).trans
              (structEq_updNode_stage (w1.setDirty st) self none))
        · rw [if_neg hint] at h
          simp only [Except.ok.injEq] at h
          subst h
          exact h01.trans (structEq_updNode_stage w1 self none)
    refine ⟨hone, ?_⟩
    intro cs
    induction cs with
    | nil =>
      intro w w' h
      simp only [removeStageRefChildren] at h
      cases h
      exact StructEq.refl _
    | cons c rest ih =>
      intro w w' h
      simp only [removeStageRefChildren] at h
      rcases hm : removeStageRef (fuel + 1) w c with e | wmid
      · rw [hm] at h
        simp at h
      · rw [hm] at h
        simp only at h
        exact (hone _ _ _ hm).trans (ih _ _ h)

/-! ## Simple example worlds used by witnesses -/

/-- A heap of fresh display objects: no parents, no children, no stage. -/
def w0 : World :=
  { nodes := fun _ => ⟨none, [], none, false⟩
    dirty := fun _ => false }

/-- C4: `addChildAt` with `index < 0` or `index > length` throws the
out-of-bounds error and the heap at the throw is the unmodified input heap:
the container's child list, the child's parent reference and the previous
parent's child list are all untouched, because the bounds check runs before
the detach from the previous parent. -/
theorem addChildAt_oob_atomic (fuel : Nat) (w : World) (self child : Nat)
    (index : Int)
    (h : index < 0 ∨ ((w.nodes self).children.length : Int) < index) :
    addChildAt fuel w self child index = .error (.outOfBounds, w) := by
  unfold addChildAt
  rw [if_neg]
  intro hc
  rcases hc with ⟨h0, h1⟩
  omega

/-- Witness for C4 at a concrete heap and index. -/
theorem addChildAt_oob_atomic_witness :
    addChildAt 3 w0 0 1 (-1) = .error (.outOfBounds, w0) :=
  addChildAt_oob_atomic 3 w0 0 1 (-1) (Or.inl (by norm_num))

theorem foldl_gbStep_invisible (cs : List ChildView) (acc : GBAcc)
    (h : ∀ c ∈ cs, c.visible = false) : cs.foldl gbStep acc = acc := by
  induction cs generalizing acc with
  | nil => rfl
  | cons c rest ih =>
    have hc : c.visible = false := h c (List.mem_cons_self c rest)
    have hstep : gbStep acc c = acc := by
      unfold gbStep
      rw [if_pos hc]
    rw [List.foldl_cons, hstep]
    exact ih acc fun c hc => h c (List.mem_cons_of_mem _ hc)

/-- C2: `getBounds()` returns the shared `Rectangle.EMPTY` sentinel — not a
freshly computed zero rectangle — whenever the container has no children or
none of its direct children is visible. -/
theorem getBounds_empty_sentinel (cs : List ChildView)
    (h : cs = [] ∨ ∀ c ∈ cs, c.visible = false) :
    getBounds cs = .empty := by
  rcases h with h | h
  · subst h
    rfl
  · unfold getBounds
    by_cases hlen : cs.length = 0
    · rw [if_pos hlen]
    · rw [if_neg hlen, foldl_gbStep_invisible cs _ h]
      rfl

/-- Witness for C2: a container whose single child is invisible. -/
theorem getBounds_empty_sentinel_witness :
    getBounds [⟨false, ⟨1, 2, 3, 4⟩⟩] = .empty :=
  getBounds_empty_sentinel _ (Or.inr (by decide))

/-- C9: the derived `width`/`height` setters never divide by zero: when the
local-bounds dimension is `0` they set the scale component to `1`, and only
when it is nonzero do they set it to `value / dimension`. -/
theorem size_setter_no_div_zero :
    (∀ value : ℚ, widthSetScaleX 0 value = 1) ∧
    (∀ value : ℚ, heightSetScaleY 0 value = 1) ∧
    (∀ lbWidth value : ℚ, lbWidth ≠ 0 →
      widthSetScaleX lbWidth value = value / lbWidth) ∧
    (∀ lbHeight value : ℚ, lbHeight ≠ 0 →
      heightSetScaleY lbHeight value = value / lbHeight) := by
  refine ⟨fun value => ?_, fun value => ?_,
    fun lbWidth value h => ?_, fun lbHeight value h => ?_⟩ <;>
    simp [widthSetScaleX, heightSetScaleY, *]

/-- Witness for C9 at concrete dimensions. -/
theorem size_setter_no_div_zero_witness :
    widthSetScaleX 0 5 = 1 ∧ heightSetScaleY 0 7 = 1 ∧
    widthSetScaleX 2 5 = 5 / 2 ∧ heightSetScaleY 4 2 = 2 / 4 :=
  ⟨size_setter_no_div_zero.1 5, size_setter_no_div_zero.2.1 7,
    size_setter_no_div_zero.2.2.1 2 5 (by norm_num),
    size_setter_no_div_zero.2.2.2 4 2 (by norm_num)⟩

/-- C8 counterexample: at `visible = true`, `alpha = -1` the two backends
disagree: `_renderWebGL` returns immediately (`this.alpha <= 0`) but
`_renderCanvas` (`this.alpha === 0`) still recurses into the child, so the
two backends do not apply the same early-return condition and the canvas
backend does not return immediately for a fully transparent container. -/
theorem render_early_return_differs :
    renderWebGL ⟨true, -1, false, false, false, [0]⟩ = [] ∧
    renderCanvas ⟨true, -1, false, false, false, [0]⟩ = [.renderChild 0] ∧
    renderCanvas ⟨true, -1, false, false, false, [0]⟩ ≠ [] := by
  refine ⟨?_, ?_, ?_⟩ <;> simp [renderWebGL, renderCanvas]

/-- C8 (amended): both backends return immediately — no render-session
calls, no recursion into children, hence no state change — when the
container is not visible; the accelerated backend additionally returns
immediately whenever `alpha ≤ 0`, while the immediate backend does so only
when `alpha = 0`. -/
theorem render_early_return (n : RNode) :
    (n.visible = false → renderWebGL n = [] ∧ renderCanvas n = []) ∧
    (n.alpha ≤ 0 → renderWebGL n = []) ∧
    (n.alpha = 0 → renderCanvas n = []) := by
  refine ⟨fun h => ⟨?_, ?_⟩, fun h => ?_, fun h => ?_⟩ <;>
    simp [renderWebGL, renderCanvas, h]

/-- Witness for C8 (amended) at a concrete invisible node. -/
theorem render_early_return_witness :
    renderWebGL ⟨false, 1, false, false, false, [0]⟩ = [] ∧
    renderCanvas ⟨false, 1, false, false, false, [0]⟩ = [] ∧
    renderWebGL ⟨true, 0, true, true, true, [0]⟩ = [] ∧
    renderCanvas ⟨true, 0, true, true, true, [0]⟩ = [] :=
  ⟨((render_early_return _).1 rfl).1, ((render_early_return _).1 rfl).2,
    (render_early_return ⟨true, 0, true, true, true, [0]⟩).2.1 le_rfl,
    (render_early_return ⟨true, 0, true, true, true, [0]⟩).2.2 rfl⟩

theorem jsMin_some (v x : ℚ) : jsMin (some v) x = min v x := by
  simp only [jsMin]
  by_cases h : v < x
  · rw [if_pos h]
    exact (min_eq_left h.le).symm
  · rw [if_neg h]
    exact (min_eq_right (le_of_not_lt h)).symm

theorem jsMax_some (v x : ℚ) : jsMax (some v) x = max v x := by
  simp only [jsMax]
  by_cases h : v > x
  · rw [if_pos h]
    exact (max_eq_left h.le).symm
  · rw [if_neg h]
    exact (max_eq_right (le_of_not_lt h)).symm

theorem foldl_gbStep_some (cs : List ChildView) (a b c d : ℚ) :
    cs.foldl gbStep ⟨some a, some b, some c, some d, true⟩ =
      ⟨some ((cs.filter fun ch => ch.visible).foldl
          (fun m ch => min m ch.bounds.x) a),
        some ((cs.filter fun ch => ch.visible).foldl
          (fun m ch => min m ch.bounds.y) b),
        some ((cs.filter fun ch => ch.visible).foldl
          (fun m ch => max m (ch.bounds.width + ch.bounds.x)) c),
        some ((cs.filter fun ch => ch.visible).foldl
          (fun m ch => max m (ch.bounds.height + ch.bounds.y)) d),
        true⟩ := by
  induction cs generalizing a b c d with
  | nil => rfl
  | cons ch t ih =>
    by_cases hv : ch.visible
    · have hstep : gbStep ⟨some a, some b, some c, some d, true⟩ ch =
          ⟨some (min a ch.bounds.x), some (min b ch.bounds.y),
            some (max c (ch.bounds.width + ch.bounds.x)),
            some (max d (ch.bounds.height + ch.bounds.y)), true⟩ := by
        unfold gbStep
        rw [if_neg (by simp [hv]), jsMin_some, jsMin_some, jsMax_some,
          jsMax_some]
      rw [List.foldl_cons, hstep, ih, List.filter_cons_of_pos hv,
        List.foldl_cons, List.foldl_cons, List.foldl_cons, List.foldl_cons]
    · have hv' : ch.visible = false := by
        cases hvv : ch.visible
        · rfl
        · exact absurd hvv hv
      have hstep : gbStep ⟨some a, some b, some c, some d, true⟩ ch =
          ⟨some a, some b, some c, some d, true⟩ := by
        unfold gbStep
        rw [if_pos hv']
      rw [List.foldl_cons, hstep, ih,
        List.filter_cons_of_neg (by simp [hv'])]

theorem foldl_gbStep_first (cs : List ChildView) (v : ChildView)
    (rest : List ChildView)
    (h : cs.filter (fun c => c.visible) = v :: rest) :
    cs.foldl gbStep ⟨none, none, none, none, false⟩ =
      ⟨some (rest.foldl (fun m ch => min m ch.bounds.x) v.bounds.x),
        some (rest.foldl (fun m ch => min m ch.bounds.y) v.bounds.y),
        some (rest.foldl (fun m ch => max m (ch.bounds.width + ch.bounds.x))
          (v.bounds.width + v.bounds.x)),
        some (rest.foldl (fun m ch => max m (ch.bounds.height + ch.bounds.y))
          (v.bounds.height + v.bounds.y)),
        true⟩ := by
  induction cs with
  | nil => simp at h
  | cons ch t ih =>
    by_cases hv : ch.visible
    · rw [List.filter_cons_of_pos hv] at h
      injection h with hv1 hrest
      subst hv1
      have hstep : gbStep ⟨none, none, none, none, false⟩ ch =
          ⟨some ch.bounds.x, some ch.bounds.y,
            some (ch.bounds.width + ch.bounds.x),
            some (ch.bounds.height + ch.bounds.y), true⟩ := by
        unfold gbStep
        rw [if_neg (by simp [hv])]
        rfl
      rw [List.foldl_cons, hstep, foldl_gbStep_some, hrest]
    · have hv' : ch.visible = false := by
        cases hvv : ch.visible
        · rfl
        · exact absurd hvv hv
      rw [List.filter_cons_of_neg (by simp [hv'])] at h
      have hstep : gbStep ⟨none, none, none, none, false⟩ ch =
          ⟨none, none, none, none, false⟩ := by
        unfold gbStep
        rw [if_pos hv']
      rw [List.foldl_cons, hstep, ih h]

/-- C6: on a container with at least one visible direct child, `getBounds`
returns the rectangle `(minX, minY, maxX - minX, maxY - minY)`, where
`minX`/`minY` run over the visible children's bounds origins and
`maxX`/`maxY` over their `x + width` / `y + height` (the folds start at
the first visible child and take the componentwise min/max over the
rest). -/
theorem getBounds_min_max (cs : List ChildView) (v : ChildView)
    (rest : List ChildView)
    (h : cs.filter (fun c => c.visible) = v :: rest) :
    getBounds cs = .rect
      { x := rest.foldl (fun m ch => min m ch.bounds.x) v.bounds.x
        y := rest.foldl (fun m ch => min m ch.bounds.y) v.bounds.y
        width :=
          rest.foldl (fun m ch => max m (ch.bounds.width + ch.bounds.x))
              (v.bounds.width + v.bounds.x) -
            rest.foldl (fun m ch => min m ch.bounds.x) v.bounds.x
        height :=
          rest.foldl (fun m ch => max m (ch.bounds.height + ch.bounds.y))
              (v.bounds.height + v.bounds.y) -
            rest.foldl (fun m ch => min m ch.bounds.y) v.bounds.y } := by
  have hlen : cs.length ≠ 0 := by
    intro hc
    rw [List.length_eq_zero] at hc
    subst hc
    simp at h
  unfold getBounds
  rw [if_neg hlen, foldl_gbStep_first cs v rest h]
  rfl

/-- Witness for C6, which is also the spec's concrete instance: children
with bounds `(0,0,10,10)` and `(20,20,5,5)` yield `(0,0,25,25)`. -/
theorem getBounds_min_max_witness :
    getBounds [⟨true, ⟨0, 0, 10, 10⟩⟩, ⟨true, ⟨20, 20, 5, 5⟩⟩] =
      .rect ⟨0, 0, 25, 25⟩ := by
  rw [getBounds_min_max _ ⟨true, ⟨0, 0, 10, 10⟩⟩ [⟨true, ⟨20, 20, 5, 5⟩⟩]
    (by rfl)]
  norm_num

theorem getChildAt_error (w : World) (self : Nat) (index : Int) (e : Err)
    (h : getChildAt w self index = .error e) : e = .outOfBounds := by
  simp only [getChildAt] at h
  split at h
  · cases h
    rfl
  · cases h

theorem stage_updNode_parent (w : World) (c : Nat) (self : Nat) :
    ((w.updNode c { w.nodes c with parent := none }).nodes self).stage =
      (w.nodes self).stage := by
  by_cases h : self = c <;> simp [World.updNode, h]

theorem removeChildrenLoop_stage_none (fuel : Nat) (self : Nat) :
    ∀ (cs : List Nat) (w : World), (w.nodes self).stage = none →
      ∃ w2, removeChildrenLoop fuel w self cs = .ok w2 ∧
        (w2.nodes self).stage = none := by
  intro cs
  induction cs with
  | nil =>
    intro w h
    exact ⟨w, rfl, h⟩
  | cons c rest ih =>
    intro w h
    have hguard : (w.nodes self).stage.isSome = false := by
      rw [h]
      rfl
    have hstage :
        (((w.updNode c { w.nodes c with parent := none }).nodes self)).stage
          = none := by
      rw [stage_updNode_parent]
      exact h
    obtain ⟨w2, hw2, hst2⟩ :=
      ih (w.updNode c { w.nodes c with parent := none }) hstage
    refine ⟨w2, ?_, hst2⟩
    unfold removeChildrenLoop
    rw [hguard]
    simpa using hw2

theorem removeChildrenLoop_stage_none_ne (fuel : Nat) (self : Nat)
    (cs : List Nat) (w : World) (hst : (w.nodes self).stage = none)
    (e : Err × World) : removeChildrenLoop fuel w self cs ≠ .error e := by
  obtain ⟨w2, hw2, -⟩ := removeChildrenLoop_stage_none fuel self cs w hst
  rw [hw2]
  simp


/-! ## `swapChildren` -/

theorem jsIndexOf_unique (l : List Nat) (x : Nat) (i : Nat)
    (hget : l.get? i = some x) (huniq : ∀ j, l.get? j = some x → j = i) :
    jsIndexOf l x = (i : Int) := by
  induction l generalizing i with
  | nil => simp at hget
  | cons a t ih =>
    by_cases hxa : x = a
    · have h0 : 0 = i := huniq 0 (by simp [hxa])
      simp [jsIndexOf, hxa, ← h0]
    · cases i with
      | zero =>
        simp only [List.get?_cons_zero, Option.some.injEq] at hget
        exact absurd hget.symm hxa
      | succ i =>
        simp only [List.get?_cons_succ] at hget
        have hmem : x ∈ t := List.get?_mem hget
        have ht : jsIndexOf t x ≠ -1 :=
          fun hc => (jsIndexOf_eq_neg_one t x).1 hc hmem
        have huniq' : ∀ j, t.get? j = some x → j = i := by
          intro j hj
          have := huniq (j + 1) (by simpa using hj)
          omega
        have hih := ih i hget huniq'
        simp only [jsIndexOf, if_neg hxa, if_neg ht, hih]
        push_cast
        ring

theorem getChildIndex_mem (w : World) (self a : Nat)
    (h : a ∈ (w.nodes self).children) :
    getChildIndex w self a = .ok (jsIndexOf (w.nodes self).children a) := by
  unfold getChildIndex
  rw [if_neg (fun hc => (jsIndexOf_eq_neg_one _ _).1 hc h)]

theorem getChildIndex_not_mem (w : World) (self a : Nat)
    (h : a ∉ (w.nodes self).children) :
    getChildIndex w self a = .error .membership := by
  unfold getChildIndex
  rw [if_pos ((jsIndexOf_eq_neg_one _ _).2 h)]

theorem swapChildren_ok (w : World) (self a b : Nat) (hne : a ≠ b)
    (hma : a ∈ (w.nodes self).children) (hmb : b ∈ (w.nodes self).children) :
    swapChildren w self a b = .ok (w.updNode self
      { w.nodes self with
        children :=
          (((w.nodes self).children.set
              (jsIndexOf (w.nodes self).children a).toNat b).set
            (jsIndexOf (w.nodes self).children b).toNat a) }) := by
  have ha0 := jsIndexOf_nonneg _ a hma
  have hb0 := jsIndexOf_nonneg _ b hmb
  unfold swapChildren
  rw [if_neg hne]
  simp only [getChildIndex_mem w self a hma, getChildIndex_mem w self b hmb]
  rw [if_neg (by push_neg; exact ⟨ha0, hb0⟩)]

/-- C7: `swapChildren(a, a)` leaves the heap unchanged; on two distinct
direct children of a container (whose child list is duplicate-free, as the
single-parent invariant guarantees) the swap succeeds and doing it twice
restores the original child order; and if either operand of a swap of
distinct nodes is not a direct child, the membership error is raised with
the heap untouched. -/
theorem swapChildren_involution :
    (∀ (w : World) (self a : Nat), swapChildren w self a a = .ok w) ∧
    (∀ (w : World) (self a b : Nat),
      (w.nodes self).children.Nodup → a ≠ b →
      a ∈ (w.nodes self).children → b ∈ (w.nodes self).children →
      ∃ w1 w2, swapChildren w self a b = .ok w1 ∧
        swapChildren w1 self a b = .ok w2 ∧
        (w2.nodes self).children = (w.nodes self).children) ∧
    (∀ (w : World) (self a b : Nat), a ≠ b →
      a ∉ (w.nodes self).children ∨ b ∉ (w.nodes self).children →
      swapChildren w self a b = .error (.membership, w)) := by
  refine ⟨?_, ?_, ?_⟩
  · intro w self a
    simp [swapChildren]
  · intro w self a b hnodup hne hma hmb
    set l := (w.nodes self).children with hl
    have ha0 := jsIndexOf_nonneg l a hma
    have hb0 := jsIndexOf_nonneg l b hmb
    set i1 := (jsIndexOf l a).toNat with hi1
    set i2 := (jsIndexOf l b).toNat with hi2
    have hget1 : l.get? i1 = some a := jsIndexOf_get l a hma
    have hget2 : l.get? i2 = some b := jsIndexOf_get l b hmb
    have hlen1 : i1 < l.length := by
      have := jsIndexOf_lt_length l a hma
      omega
    have hlen2 : i2 < l.length := by
      have := jsIndexOf_lt_length l b hmb
      omega
    have hne12 : i1 ≠ i2 := by
      intro hc
      rw [hc, hget2] at hget1
      exact hne (Option.some.inj hget1).symm
    have huniq1 : ∀ j, l.get? j = some a → j = i1 := by
      intro j hj
      have := jsIndexOf_of_get l a j hnodup hj
      omega
    have huniq2 : ∀ j, l.get? j = some b → j = i2 := by
      intro j hj
      have := jsIndexOf_of_get l b j hnodup hj
      omega
    set l2 := (l.set i1 b).set i2 a with hl2
    have hlen2l : l2.length = l.length := by
      simp [hl2]
    have h2get_i2 : l2.get? i2 = some a :=
      List.get?_set_eq_of_lt a (by simpa using hlen2)
    have h2get_i1 : l2.get? i1 = some b := by
      rw [hl2, List.get?_set_ne a _ (Ne.symm hne12)]
      exact List.get?_set_eq_of_lt b hlen1
    have h2get_other : ∀ j, j ≠ i1 → j ≠ i2 → l2.get? j = l.get? j := by
      intro j hj1 hj2
      rw [hl2, List.get?_set_ne a _ (fun hc => hj2 hc.symm),
        List.get?_set_ne b _ (fun hc => hj1 hc.symm)]
    have hma2 : a ∈ l2 := List.get?_mem h2get_i2
    have hmb2 : b ∈ l2 := List.get?_mem h2get_i1
    have hidx2a : jsIndexOf l2 a = (i2 : Int) := by
      apply jsIndexOf_unique l2 a i2 h2get_i2
      intro j hj
      by_cases hji2 : j = i2
      · exact hji2
      · by_cases hji1 : j = i1
        · rw [hji1, h2get_i1] at hj
          exact absurd (Option.some.inj hj).symm hne
        · rw [h2get_other j hji1 hji2] at hj
          exact absurd (huniq1 j hj) hji1
    have hidx2b : jsIndexOf l2 b = (i1 : Int) := by
      apply jsIndexOf_unique l2 b i1 h2get_i1
      intro j hj
      by_cases hji1 : j = i1
      · exact hji1
      · by_cases hji2 : j = i2
        · rw [hji2, h2get_i2] at hj
          exact absurd (Option.some.inj hj) hne
        · rw [h2get_other j hji1 hji2] at hj
          exact absurd (huniq2 j hj) hji2
    have hs1 := swapChildren_ok w self a b hne hma hmb
    have hchildren1 :
        ((w.updNode self { w.nodes self with children := l2 }).nodes
          self).children = l2 := by
      simp [World.updNode]
    have hs2 := swapChildren_ok
      (w.updNode self { w.nodes self with children := l2 }) self a b hne
      (by rw [hchildren1]; exact hma2) (by rw [hchildren1]; exact hmb2)
    rw [hchildren1, hidx2a, hidx2b] at hs2
    simp only [Int.toNat_natCast] at hs2
    have hfinal : (l2.set i2 b).set i1 a = l := by
      refine List.ext_get?_iff.mpr ?_
      intro n
      by_cases hn1 : n = i1
      · subst hn1
        rw [List.get?_set_eq_of_lt a (by simpa [hlen2l] using hlen1),
          hget1]
      · by_cases hn2 : n = i2
        · subst hn2
          rw [List.get?_set_ne a _ hne12,
            List.get?_set_eq_of_lt b (by simpa [hlen2l] using hlen2), hget2]
        · rw [List.get?_set_ne a _ (fun hc => hn1 hc.symm),
            List.get?_set_ne b _ (fun hc => hn2 hc.symm)]
          exact h2get_other n hn1 hn2
    refine ⟨_, _, hs1, hs2, ?_⟩
    simp only [World.nodes_updNode, if_pos rfl]
    exact hfinal
  · intro w self a b hne hnot
    unfold swapChildren
    rw [if_neg hne]
    by_cases hma : a ∈ (w.nodes self).children
    · have hmb : b ∉ (w.nodes self).children := by
        rcases hnot with h | h
        · exact absurd hma h
        · exact h
      simp only [getChildIndex_mem w self a hma,
        getChildIndex_not_mem w self b hmb]
    · simp only [getChildIndex_not_mem w self a hma]

/-- A container (node `0`) with three children `1`, `2`, `3`. -/
def wSw : World :=
  { nodes := fun i =>
      if i = 0 then ⟨none, [1, 2, 3], none, false⟩
      else ⟨some 0, [], none, false⟩
    dirty := fun _ => false }

/-- Witness for C7 on the three-child container. -/
theorem swapChildren_involution_witness :
    swapChildren wSw 0 1 1 = .ok wSw ∧
    (∃ w1 w2, swapChildren wSw 0 1 3 = .ok w1 ∧
      swapChildren w1 0 1 3 = .ok w2 ∧
      (w2.nodes 0).children = (wSw.nodes 0).children) ∧
    swapChildren wSw 0 1 9 = .error (.membership, wSw) :=
  ⟨swapChildren_involution.1 wSw 0 1,
    swapChildren_involution.2.1 wSw 0 1 3 (by decide) (by decide)
      (by decide) (by decide),
    swapChildren_involution.2.2 wSw 0 1 9 (by decide)
      (Or.inr (by decide))⟩

/-! ## `removeChildren` -/

theorem removeChildrenLoop_ok (fuel : Nat) (self : Nat) :
    ∀ (cs : List Nat) (w w2 : World),
      removeChildrenLoop fuel w self cs = .ok w2 →
      (∀ i, (w2.nodes i).children = (w.nodes i).children) ∧
      (∀ c ∈ cs, (w2.nodes c).parent = none) ∧
      (∀ i, i ∉ cs → (w2.nodes i).parent = (w.nodes i).parent) := by
  intro cs
  induction cs with
  | nil =>
    intro w w2 h
    simp only [removeChildrenLoop] at h
    cases h
    exact ⟨fun _ => rfl, fun c hc => absurd hc (List.not_mem_nil c),
      fun _ _ => rfl⟩
  | cons c rest ih =>
    intro w w2 h
    simp only [removeChildrenLoop] at h
    by_cases hg : (w.nodes self).stage.isSome = true
    · rw [if_pos hg] at h
      rcases hrs : removeStageRef fuel w c with e1 | w1
      · rw [hrs] at h
        simp at h
      · rw [hrs] at h
        have hse : StructEq w w1 := (removeStageRef_structEq fuel).1 _ _ _ hrs
        have h' : removeChildrenLoop fuel
            (w1.updNode c { w1.nodes c with parent := none }) self rest =
            .ok w2 := h
        obtain ⟨hch, hrem, hoth⟩ := ih _ _ h'
        refine ⟨?_, ?_, ?_⟩
        · intro i
          rw [hch i]
          by_cases hic : i = c <;>
            simp [World.updNode, hic, (hse i).2, (hse c).2]
        · intro x hx
          rcases List.mem_cons.1 hx with hx | hx
          · subst hx
            by_cases hcr : x ∈ rest
            · exact hrem x hcr
            · rw [hoth x hcr]
              simp [World.updNode]
          · exact hrem x hx
        · intro i hi
          have hic : i ≠ c := fun hc' => hi (hc' ▸ List.mem_cons_self c rest)
          have hir : i ∉ rest := fun hr => hi (List.mem_cons_of_mem c hr)
          rw [hoth i hir]
          simp [World.updNode, hic, (hse i).1]
    · rw [if_neg hg] at h
      have h' : removeChildrenLoop fuel
          (w.updNode c { w.nodes c with parent := none }) self rest =
          .ok w2 := h
      obtain ⟨hch, hrem, hoth⟩ := ih _ _ h'
      refine ⟨?_, ?_, ?_⟩
      · intro i
        rw [hch i]
        by_cases hic : i = c <;> simp [World.updNode, hic]
      · intro x hx
        rcases List.mem_cons.1 hx with hx | hx
        · subst hx
          by_cases hcr : x ∈ rest
          · exact hrem x hcr
          · rw [hoth x hcr]
            simp [World.updNode]
        · exact hrem x hx
      · intro i hi
        have hic : i ≠ c := fun hc' => hi (hc' ▸ List.mem_cons_self c rest)
        have hir : i ∉ rest := fun hr => hi (List.mem_cons_of_mem c hr)
        rw [hoth i hir]
        simp [World.updNode, hic]

/-- C3: with `begin` defaulting to `0` and `end` to the length and
`range = end - begin`: when `range > 0` and `range ≤ end` (the source's
literal validity check — equivalent to `begin ≥ 0` — rather than
`end ≤ length`), `removeChildren` splices out and returns the slice
starting at `begin` of (up to) `range` children, clearing each removed
child's parent link; when `range = 0` on an empty container it returns the
empty sequence; otherwise it throws the RangeError with the heap
untouched.  The splice postconditions are stated for any successful run,
and success itself is shown whenever the container is unattached (so the
recursive stage clearing is skipped). -/
theorem removeChildren_spec (fuel : Nat) (w : World) (self : Nat)
    (bI eI : Option Int) (b e : Int) (hb : b = bI.getD 0)
    (he : e = eI.getD ((w.nodes self).children.length : Int)) :
    (0 < e - b → e - b ≤ e →
      (∀ removed w',
        removeChildren fuel w self bI eI = .ok (removed, w') →
        removed =
          ((w.nodes self).children.drop b.toNat).take (e - b).toNat ∧
        (w'.nodes self).children =
          (w.nodes self).children.take b.toNat ++
            (w.nodes self).children.drop (b.toNat + (e - b).toNat) ∧
        ∀ c ∈ removed, (w'.nodes c).parent = none) ∧
      ((w.nodes self).stage = none →
        ∃ w', removeChildren fuel w self bI eI =
          .ok (((w.nodes self).children.drop b.toNat).take (e - b).toNat,
            w'))) ∧
    (e - b = 0 → (w.nodes self).children.length = 0 →
      removeChildren fuel w self bI eI = .ok ([], w)) ∧
    (¬(0 < e - b ∧ e - b ≤ e) →
      ¬(e - b = 0 ∧ (w.nodes self).children.length = 0) →
      removeChildren fuel w self bI eI = .error (.range, w)) := by
  subst hb he
  refine ⟨fun hr hre => ⟨?_, ?_⟩, fun h0 hlen => ?_, fun hn1 hn2 => ?_⟩
  · intro removed w' h
    simp only [removeChildren] at h
    rw [if_pos ⟨hr, hre⟩] at h
    rcases hloop : removeChildrenLoop fuel
        (w.updNode self
          { w.nodes self with
            children :=
              (w.nodes self).children.take (bI.getD 0).toNat ++
                (w.nodes self).children.drop
                  ((bI.getD 0).toNat +
                    (eI.getD ((w.nodes self).children.length : Int) -
                      bI.getD 0).toNat) }) self
        (((w.nodes self).children.drop (bI.getD 0).toNat).take
          (eI.getD ((w.nodes self).children.length : Int) -
            bI.getD 0).toNat) with e1 | w2
    · rw [hloop] at h
      simp at h
    · rw [hloop] at h
      simp only [Except.ok.injEq, Prod.mk.injEq] at h
      obtain ⟨hrm, hw'⟩ := h
      subst hw'
      obtain ⟨hch, hrem, -⟩ := removeChildrenLoop_ok fuel self _ _ _ hloop
      refine ⟨hrm.symm, ?_, ?_⟩
      · rw [hch self]
        simp [World.updNode]
      · intro c hc
        exact hrem c (hrm ▸ hc)
  · intro hst
    obtain ⟨w2, hloop, -⟩ := removeChildrenLoop_stage_none fuel self
      (((w.nodes self).children.drop (bI.getD 0).toNat).take
        (eI.getD ((w.nodes self).children.length : Int) -
          bI.getD 0).toNat)
      (w.updNode self
        { w.nodes self with
          children :=
            (w.nodes self).children.take (bI.getD 0).toNat ++
              (w.nodes self).children.drop
                ((bI.getD 0).toNat +
                  (eI.getD ((w.nodes self).children.length : Int) -
                    bI.getD 0).toNat) })
      (by simp [World.updNode, hst])
    refine ⟨w2, ?_⟩
    simp only [removeChildren]
    rw [if_pos ⟨hr, hre⟩, hloop]
  · simp only [removeChildren]
    rw [if_neg (by omega), if_pos ⟨h0, hlen⟩]
  · simp only [removeChildren]
    rw [if_neg hn1, if_neg hn2]

/-- A container (node `0`) with two children `1`, `2`. -/
def wTwo : World :=
  { nodes := fun i =>
      if i = 0 then ⟨none, [1, 2], none, false⟩
      else ⟨some 0, [], none, false⟩
    dirty := fun _ => false }

/-- Witness for C3: an overshooting `end` still succeeds (the check is
`range ≤ end`), the empty `(0, 0)` case returns `[]`, and a negative range
raises the RangeError. -/
theorem removeChildren_spec_witness :
    (∃ w', removeChildren 3 wTwo 0 (some 0) (some 5) = .ok ([1, 2], w')) ∧
    removeChildren 3 w0 0 none none = .ok ([], w0) ∧
    removeChildren 3 w0 0 (some 2) (some 1) = .error (.range, w0) := by
  refine ⟨?_, ?_, ?_⟩
  · obtain ⟨w', hw⟩ :=
      ((removeChildren_spec 3 wTwo 0 (some 0) (some 5) 0 5 rfl rfl).1
        (by decide) (by decide)).2 rfl
    refine ⟨w', ?_⟩
    rw [hw]
    rfl
  · exact (removeChildren_spec 3 w0 0 none none 0 0 rfl rfl).2.1 rfl rfl
  · exact (removeChildren_spec 3 w0 0 (some 2) (some 1) 2 1 rfl rfl).2.2
      (by decide) (by decide)

/-! ## Effects of `removeChildAt` / `removeChild` on a successful run -/

theorem getChildAt_ok (w : World) (self : Nat) (index : Int) (c : Nat) :
    getChildAt w self index = .ok c ↔
      0 ≤ index ∧ index < ((w.nodes self).children.length : Int) ∧
      (w.nodes self).children.getD index.toNat 0 = c := by
  simp only [getChildAt]
  split
  · rename_i hcond
    constructor
    · intro h
      cases h
    · intro ⟨h1, h2, _⟩
      omega
  · rename_i hcond
    push_neg at hcond
    constructor
    · intro h
      exact ⟨hcond.1, hcond.2, (Except.ok.inj h)⟩
    · intro ⟨_, _, h3⟩
      rw [h3]

theorem removeChildAt_ok_effects (fuel : Nat) (w : World) (self : Nat)
    (index : Int) (c : Nat) (w' : World)
    (h : removeChildAt fuel w self index = .ok (c, w')) :
    getChildAt w self index = .ok c ∧
    (∀ q, q ≠ self → (w'.nodes q).children = (w.nodes q).children) ∧
    (w'.nodes self).children =
      (w.nodes self).children.eraseIdx index.toNat ∧
    (w'.nodes c).parent = none ∧
    (∀ i, i ≠ c → (w'.nodes i).parent = (w.nodes i).parent) := by
  simp only [removeChildAt] at h
  split at h
  · simp at h
  · rename_i c0 hget
    have hse : ∃ w1,
        (if (w.nodes self).stage.isSome then removeStageRef fuel w c0
          else .ok w) = .ok w1 ∧ StructEq w w1 := by
      by_cases hg : (w.nodes self).stage.isSome = true
      · rw [if_pos hg]
        rcases hrs : removeStageRef fuel w c0 with e1 | w1
        · rw [if_pos hg, hrs] at h
          simp at h
        · exact ⟨w1, rfl, (removeStageRef_structEq fuel).1 _ _ _ hrs⟩
      · rw [if_neg hg]
        exact ⟨w, rfl, StructEq.refl w⟩
    obtain ⟨w1, hw1, hstruct⟩ := hse
    rw [hw1] at h
    simp only [Except.ok.injEq, Prod.mk.injEq] at h
    obtain ⟨hc0, hw'⟩ := h
    subst hc0
    subst hw'
    refine ⟨hget, ?_, ?_, ?_, ?_⟩
    · intro q hq
      by_cases hqc : q = c0
      · have hcs : ¬ c0 = self := fun hc => hq (hqc.trans hc)
        simp [World.updNode, hq, hqc, hcs, (hstruct c0).2]
      · simp [World.updNode, hq, hqc, (hstruct q).2]
    · by_cases hsc : self = c0 <;>
        simp [World.updNode, hsc, (hstruct self).2, (hstruct c0).2]
    · by_cases hcs : c0 = self <;> simp [World.updNode, hcs]
    · intro i hi
      by_cases his : i = self
      · subst his
        have hsc : ¬ i = c0 := hi
        simp [World.updNode, hsc, (hstruct i).1]
      · simp [World.updNode, his, hi, (hstruct i).1]

theorem getD_of_get? (l : List Nat) (n : Nat) (x : Nat)
    (h : l.get? n = some x) : l.getD n 0 = x := by
  rcases List.get?_eq_some.1 h with ⟨hlt, hget⟩
  rw [List.getD_eq_getElem l 0 hlt]
  simpa using hget

theorem removeChild_ok_effects (fuel : Nat) (w : World) (p child : Nat)
    (res : Option Nat) (w1 : World)
    (h : removeChild fuel w p child = .ok (res, w1)) :
    (child ∉ (w.nodes p).children ∧ res = none ∧ w1 = w) ∨
    (child ∈ (w.nodes p).children ∧ res = some child ∧
      (∀ q, q ≠ p → (w1.nodes q).children = (w.nodes q).children) ∧
      (w1.nodes p).children =
        (w.nodes p).children.eraseIdx
          (jsIndexOf (w.nodes p).children child).toNat ∧
      (w1.nodes child).parent = none ∧
      (∀ i, i ≠ child → (w1.nodes i).parent = (w.nodes i).parent)) := by
  simp only [removeChild] at h
  split at h
  · rename_i hcond
    simp only [Except.ok.injEq, Prod.mk.injEq] at h
    exact Or.inl ⟨(jsIndexOf_eq_neg_one _ _).1 hcond, h.1.symm, h.2.symm⟩
  · rename_i hcond
    have hmem : child ∈ (w.nodes p).children := by
      by_contra hc
      exact hcond ((jsIndexOf_eq_neg_one _ _).2 hc)
    rcases hrc : removeChildAt fuel w p
        (jsIndexOf (w.nodes p).children child) with e1 | cw
    · rw [hrc] at h
      simp at h
    · obtain ⟨c', w1'⟩ := cw
      rw [hrc] at h
      simp only [Except.ok.injEq, Prod.mk.injEq] at h
      obtain ⟨hres, hw1⟩ := h
      obtain ⟨hget, heff⟩ := removeChildAt_ok_effects fuel w p
        (jsIndexOf (w.nodes p).children child) c' w1' hrc
      have hc' : c' = child := by
        have hx := (getChildAt_ok w p
          (jsIndexOf (w.nodes p).children child) c').1 hget
        have hgd := getD_of_get?
          ((w.nodes p).children)
          (jsIndexOf (w.nodes p).children child).toNat child
          (jsIndexOf_get _ child hmem)
        rw [hgd] at hx
        exact hx.2.2.symm
      subst hc'
      subst hw1
      exact Or.inr ⟨hmem, hres.symm, heff.1, heff.2.1,
        heff.2.2.1, heff.2.2.2⟩

theorem stage_updNode_keep (w : World) (i : Nat) (n : Node)
    (hn : n.stage = (w.nodes i).stage) (j : Nat) :
    ((w.updNode i n).nodes j).stage = (w.nodes j).stage := by
  by_cases h : j = i <;> simp [World.updNode, h, hn]

theorem removeChild_stage_none_ok (fuel : Nat) (w : World) (p child : Nat)
    (hst : (w.nodes p).stage = none) :
    ∃ res w1, removeChild fuel w p child = .ok (res, w1) ∧
      ∀ i, (w1.nodes i).stage = (w.nodes i).stage := by
  simp only [removeChild]
  split
  · exact ⟨none, w, rfl, fun _ => rfl⟩
  · rename_i hcond
    have hmem : child ∈ (w.nodes p).children := by
      by_contra hc
      exact hcond ((jsIndexOf_eq_neg_one _ _).2 hc)
    have h0 := jsIndexOf_nonneg _ child hmem
    have hlt := jsIndexOf_lt_length _ child hmem
    have hga : getChildAt w p (jsIndexOf (w.nodes p).children child) =
        .ok ((w.nodes p).children.getD
          (jsIndexOf (w.nodes p).children child).toNat 0) :=
      (getChildAt_ok w p _ _).2 ⟨h0, hlt, rfl⟩
    simp only [removeChildAt, hga]
    have hguard : (w.nodes p).stage.isSome = false := by
      rw [hst]
      rfl
    rw [hguard]
    refine ⟨_, _, rfl, fun i => ?_⟩
    rw [stage_updNode_keep, stage_updNode_keep] <;> rfl

/-- C1 (amended): for a child that is not already among the container's
direct children and any index in `[0, length]`, whenever
`addChildAt(child, index)` returns normally it returns the child, sets the
child's parent reference to the container, makes `getChildAt(index)`
return that child, and grows the child list by exactly one; and the call
does return normally whenever neither the container nor the child's
previous parent is attached to a stage (so the recursive stage
propagation is skipped). -/
theorem addChildAt_insert_spec (fuel : Nat) (w : World) (self child : Nat)
    (index : Int) (h0 : 0 ≤ index)
    (hle : index ≤ ((w.nodes self).children.length : Int))
    (hmem : child ∉ (w.nodes self).children) :
    (∀ r w', addChildAt fuel w self child index = .ok (r, w') →
      r = child ∧ (w'.nodes child).parent = some self ∧
      getChildAt w' self index = .ok child ∧
      (w'.nodes self).children.length =
        (w.nodes self).children.length + 1) ∧
    ((w.nodes self).stage = none →
      (∀ p, (w.nodes child).parent = some p → (w.nodes p).stage = none) →
      ∃ w', addChildAt fuel w self child index = .ok (child, w')) := by
  constructor
  · intro r w' h
    simp only [addChildAt] at h
    rw [if_pos ⟨h0, hle⟩] at h
    split at h
    · simp at h
    · rename_i w1 hstep
      have hch1 : (w1.nodes self).children = (w.nodes self).children := by
        split at hstep
        · rename_i p hpar
          split at hstep
          · simp at hstep
          · rename_i res w1' hrc
            simp only [Except.ok.injEq] at hstep
            subst hstep
            rcases removeChild_ok_effects fuel w p child res w1' hrc with
              ⟨-, -, hw⟩ | ⟨hm, -, hq, -, -, -⟩
            · rw [hw]
            · by_cases hps : p = self
              · exact absurd (hps ▸ hm) hmem
              · exact hq self (fun hc => hps hc.symm)
        · simp only [Except.ok.injEq] at hstep
          rw [← hstep]
      set w2 := w1.updNode child { w1.nodes child with parent := some self }
        with hw2
      set w3 := w2.updNode self
        { w2.nodes self with
          children :=
            jsSpliceInsert (w2.nodes self).children index.toNat child }
        with hw3
      have hch2 : (w2.nodes self).children = (w.nodes self).children := by
        rw [hw2]
        by_cases hcs : self = child
        · simp only [World.nodes_updNode, if_pos hcs]
          rw [← hcs]
          exact hch1
        · simp only [World.nodes_updNode, if_neg hcs]
          exact hch1
      have hch3 : (w3.nodes self).children =
          jsSpliceInsert ((w.nodes self).children) index.toNat child := by
        rw [hw3]
        simp [World.updNode, hch2]
      have hpar3 : (w3.nodes child).parent = some self := by
        rw [hw3, hw2]
        by_cases hcs : child = self <;> simp [World.updNode, hcs]
      have hitoNat : index.toNat ≤ (w.nodes self).children.length := by
        omega
      have hgc3 : getChildAt w3 self index = .ok child := by
        apply (getChildAt_ok w3 self index child).2
        refine ⟨h0, ?_, ?_⟩
        · rw [hch3, jsSpliceInsert_length]
          push_cast
          omega
        · rw [hch3]
          exact getD_of_get? _ _ _
            (jsSpliceInsert_get _ _ child hitoNat)
      have hlen3 : (w3.nodes self).children.length =
          (w.nodes self).children.length + 1 := by
        rw [hch3, jsSpliceInsert_length]
      split at h
      · rename_i st hst3
        split at h
        · simp at h
        · rename_i w4 hw4
          simp only [Except.ok.injEq, Prod.mk.injEq] at h
          obtain ⟨hr, hww⟩ := h
          subst hr
          subst hww
          have hse : StructEq w3 w4 :=
            (setStageRef_structEq fuel).1 _ _ _ _ hw4
          refine ⟨rfl, ?_, ?_, ?_⟩
          · rw [(hse child).1, hpar3]
          · apply (getChildAt_ok _ _ _ _).2
            obtain ⟨a1, a2, a3⟩ := (getChildAt_ok w3 self index child).1 hgc3
            refine ⟨a1, ?_, ?_⟩
            · rw [(hse self).2]
              exact a2
            · rw [(hse self).2]
              exact a3
          · rw [(hse self).2, hlen3]
      · rename_i hst3
        simp only [Except.ok.injEq, Prod.mk.injEq] at h
        obtain ⟨hr, hww⟩ := h
        subst hr
        subst hww
        exact ⟨rfl, hpar3, hgc3, hlen3⟩
  · intro hstn hpstn
    simp only [addChildAt]
    rw [if_pos ⟨h0, hle⟩]
    rcases hpar : (w.nodes child).parent with _ | p
    · simp only [hpar]
      have hst3 : (((w.updNode child
            { w.nodes child with parent := some self }).updNode self
            { (w.updNode child
                { w.nodes child with parent := some self }).nodes self with
              children :=
                jsSpliceInsert
                  ((w.updNode child
                      { w.nodes child with
                        parent := some self }).nodes self).children
                  index.toNat child }).nodes self).stage = none := by
        rw [stage_updNode_keep]
        · rw [stage_updNode_keep]
          · exact hstn
          · rfl
        · rfl
      simp only [hst3]
      exact ⟨_, rfl⟩
    · obtain ⟨res, w1, hrc, hstages⟩ :=
        removeChild_stage_none_ok fuel w p child (hpstn p hpar)
      simp only [hpar, hrc]
      have hst3 : (((w1.updNode child
            { w1.nodes child with parent := some self }).updNode self
            { (w1.updNode child
                { w1.nodes child with parent := some self }).nodes self with
              children :=
                jsSpliceInsert
                  ((w1.updNode child
                      { w1.nodes child with
                        parent := some self }).nodes self).children
                  index.toNat child }).nodes self).stage = none := by
        rw [stage_updNode_keep]
        · rw [stage_updNode_keep]
          · rw [hstages self]
            exact hstn
          · rfl
        · rfl
      simp only [hst3]
      exact ⟨_, rfl⟩

/-- A container (node `0`) owning the single child `1`. -/
def wOne : World :=
  { nodes := fun i =>
      if i = 0 then ⟨none, [1], none, false⟩
      else if i = 1 then ⟨some 0, [], none, false⟩
      else ⟨none, [], none, false⟩
    dirty := fun _ => false }

/-- Projects the heap out of an `addChildAt` result. -/
def exWorldAdd (r : Except (Err × World) (Nat × World)) : World :=
  match r with
  | .ok (_, w') => w'
  | .error (_, w') => w'

/-- C1 counterexample: re-adding a container's own child at the append
index `1 = length` (a valid index per the claim) first detaches it, so the
subsequent splice lands in a list that is one element shorter: the call
returns normally but the child count stays `1` instead of growing to `2`,
and `getChildAt(1)` afterwards throws instead of returning the child. -/
theorem addChildAt_readd_not_grow :
    addChildAt 3 wOne 0 1 1 =
      .ok (1, exWorldAdd (addChildAt 3 wOne 0 1 1)) ∧
    ((exWorldAdd (addChildAt 3 wOne 0 1 1)).nodes 0).children = [1] ∧
    ((exWorldAdd (addChildAt 3 wOne 0 1 1)).nodes 0).children.length ≠
      (wOne.nodes 0).children.length + 1 ∧
    getChildAt (exWorldAdd (addChildAt 3 wOne 0 1 1)) 0 1 =
      .error .outOfBounds :=
  ⟨rfl, by decide, by decide, rfl⟩

/-- Witness for C1 (amended): inserting a fresh child into an empty
unattached container succeeds. -/
theorem addChildAt_insert_spec_witness :
    ∃ w', addChildAt 3 w0 0 1 0 = .ok (1, w') :=
  (addChildAt_insert_spec 3 w0 0 1 0 (by decide) (by decide)
    (by decide)).2 rfl (fun p hp => by simp [w0] at hp)

/-! ## The single-parent invariant -/

theorem nodup_get?_inj (l : List Nat) (hnd : l.Nodup) {i j x : Nat}
    (hi : l.get? i = some x) (hj : l.get? j = some x) : i = j := by
  have a := jsIndexOf_of_get l x i hnd hi
  have b := jsIndexOf_of_get l x j hnd hj
  omega

theorem mem_eraseIdx_of_mem_ne (l : List Nat) (i : Nat) (x c : Nat)
    (hget : l.get? i = some c) (hx : x ∈ l) (hne : x ≠ c) :
    x ∈ l.eraseIdx i := by
  obtain ⟨j, hj⟩ := List.mem_iff_get?.1 hx
  rw [List.mem_eraseIdx_iff_getElem?]
  refine ⟨j, ?_, by rw [← List.get?_eq_getElem?]; exact hj⟩
  intro hji
  subst hji
  rw [hget] at hj
  exact hne (Option.some.inj hj).symm

theorem not_mem_eraseIdx_self (l : List Nat) (i c : Nat)
    (hnd : l.Nodup) (hget : l.get? i = some c) : c ∉ l.eraseIdx i := by
  intro hmem
  rw [List.mem_eraseIdx_iff_getElem?] at hmem
  obtain ⟨j, hji, hj⟩ := hmem
  exact hji (nodup_get?_inj l hnd (by rw [List.get?_eq_getElem?]; exact hj)
    hget)

theorem nodup_eraseIdx (l : List Nat) (i : Nat) (h : l.Nodup) :
    (l.eraseIdx i).Nodup :=
  List.Nodup.sublist (List.eraseIdx_sublist l i) h

/-- The single-parent invariant of the display tree: a set parent
back-reference points at a container whose child list holds the node, a
node listed as a child has its parent reference set to that container
(hence no node is listed by two containers), and no child list has
duplicates. -/
def TreeInv (w : World) : Prop :=
  (∀ i p, (w.nodes i).parent = some p → i ∈ (w.nodes p).children) ∧
  (∀ p i, i ∈ (w.nodes p).children → (w.nodes i).parent = some p) ∧
  (∀ p, (w.nodes p).children.Nodup)

theorem TreeInv.structEq {w w' : World} (hinv : TreeInv w)
    (hse : StructEq w w') : TreeInv w' := by
  obtain ⟨h1, h2, h3⟩ := hinv
  refine ⟨?_, ?_, ?_⟩
  · intro i p hp
    rw [(hse i).1] at hp
    rw [(hse p).2]
    exact h1 i p hp
  · intro p i hp
    rw [(hse p).2] at hp
    rw [(hse i).1]
    exact h2 p i hp
  · intro p
    rw [(hse p).2]
    exact h3 p

theorem treeInv_removeChildAt (fuel : Nat) (w : World) (self : Nat)
    (index : Int) (c : Nat) (w' : World) (hinv : TreeInv w)
    (h : removeChildAt fuel w self index = .ok (c, w')) : TreeInv w' := by
  obtain ⟨h1, h2, h3⟩ := hinv
  obtain ⟨hget, hqch, hselfch, hcpar, hopar⟩ :=
    removeChildAt_ok_effects fuel w self index c w' h
  obtain ⟨hi0, hilt, higet⟩ := (getChildAt_ok w self index c).1 hget
  have hlt : index.toNat < (w.nodes self).children.length := by omega
  have hgets : (w.nodes self).children.get? index.toNat = some c := by
    rw [List.get?_eq_getElem?, List.getElem?_eq_getElem hlt,
      ← List.getD_eq_getElem _ 0 hlt, higet]
  have hcmem : c ∈ (w.nodes self).children := List.get?_mem hgets
  refine ⟨?_, ?_, ?_⟩
  · intro i p hp
    by_cases hic : i = c
    · rw [hic, hcpar] at hp
      cases hp
    · rw [hopar i hic] at hp
      have hmem := h1 i p hp
      by_cases hps : p = self
      · rw [hps, hselfch]
        rw [hps] at hmem
        exact mem_eraseIdx_of_mem_ne _ _ i c hgets hmem hic
      · rw [hqch p hps]
        exact hmem
  · intro p i hp
    by_cases hps : p = self
    · rw [hps, hselfch] at hp
      have himem : i ∈ (w.nodes self).children :=
        List.eraseIdx_subset _ _ hp
      have hic : i ≠ c := by
        intro hc'
        rw [hc'] at hp
        exact not_mem_eraseIdx_self _ _ _ (h3 self) hgets hp
      rw [hopar i hic, hps]
      exact h2 self i himem
    · rw [hqch p hps] at hp
      have hic : i ≠ c := by
        intro hc'
        rw [hc'] at hp
        have hpc := h2 p c hp
        have hsc := h2 self c hcmem
        rw [hpc] at hsc
        exact hps (Option.some.inj hsc)
      rw [hopar i hic]
      exact h2 p i hp
  · intro p
    by_cases hps : p = self
    · rw [hps, hselfch]
      exact nodup_eraseIdx _ _ (h3 self)
    · rw [hqch p hps]
      exact h3 p

theorem treeInv_removeChild (fuel : Nat) (w : World) (self child : Nat)
    (res : Option Nat) (w1 : World) (hinv : TreeInv w)
    (h : removeChild fuel w self child = .ok (res, w1)) : TreeInv w1 := by
  simp only [removeChild] at h
  split at h
  · simp only [Except.ok.injEq, Prod.mk.injEq] at h
    rw [← h.2]
    exact hinv
  · split at h
    · simp at h
    · rename_i c w'' hrc
      simp only [Except.ok.injEq, Prod.mk.injEq] at h
      rw [← h.2]
      exact treeInv_removeChildAt fuel w self _ c w'' hinv hrc

theorem detach_effects (fuel : Nat) (w : World) (child : Nat) (w1 : World)
    (hinv : TreeInv w)
    (hstep : (match (w.nodes child).parent with
        | some p =>
          match removeChild fuel w p child with
          | Except.error e => (Except.error e : Except (Err × World) World)
          | Except.ok (_, w'') => Except.ok w''
        | none => (Except.ok w : Except (Err × World) World)) = .ok w1) :
    TreeInv w1 ∧ (∀ q, child ∉ (w1.nodes q).children) := by
  obtain ⟨h1, h2, h3⟩ := hinv
  split at hstep
  · rename_i p hpar
    split at hstep
    · simp at hstep
    · rename_i res w1' hrc
      simp only [Except.ok.injEq] at hstep
      subst hstep
      refine ⟨treeInv_removeChild fuel w p child res w1' ⟨h1, h2, h3⟩ hrc,
        ?_⟩
      rcases removeChild_ok_effects fuel w p child res w1' hrc with
        ⟨hnm, -, hw⟩ | ⟨hm, -, hq, hpch, -, -⟩
      · subst hw
        intro q hmem
        have := h2 q child hmem
        rw [hpar] at this
        have hqp : q = p := (Option.some.inj this).symm
        rw [hqp] at hmem
        exact hnm hmem
      · intro q hmem
        by_cases hqp : q = p
        · rw [hqp, hpch] at hmem
          exact not_mem_eraseIdx_self _ _ _ (h3 p)
            (jsIndexOf_get _ child hm) hmem
        · rw [hq q hqp] at hmem
          have := h2 q child hmem
          rw [hpar] at this
          exact hqp (Option.some.inj this).symm
  · rename_i hpar
    simp only [Except.ok.injEq] at hstep
    subst hstep
    refine ⟨⟨h1, h2, h3⟩, ?_⟩
    intro q hmem
    have := h2 q child hmem
    rw [hpar] at this
    cases this

theorem treeInv_addChildAt (fuel : Nat) (w : World) (self child : Nat)
    (index : Int) (r : Nat) (w' : World) (hinv : TreeInv w)
    (h : addChildAt fuel w self child index = .ok (r, w')) : TreeInv w' := by
  simp only [addChildAt] at h
  split at h
  · split at h
    · simp at h
    · rename_i w1 hstep
      obtain ⟨hinv1, hnomem⟩ := detach_effects fuel w child w1 hinv hstep
      obtain ⟨g1, g2, g3⟩ := hinv1
      set w2 := w1.updNode child { w1.nodes child with parent := some self }
        with hw2
      set w3 := w2.updNode self
        { w2.nodes self with
          children :=
            jsSpliceInsert (w2.nodes self).children index.toNat child }
        with hw3
      have hch2 : ∀ i, (w2.nodes i).children = (w1.nodes i).children := by
        intro i
        rw [hw2]
        by_cases hic : i = child <;> simp [World.updNode, hic]
      have hdescp : ∀ i, (w3.nodes i).parent =
          if i = child then some self else (w1.nodes i).parent := by
        intro i
        rw [hw3]
        by_cases his : i = self
        · rw [his]
          simp only [World.nodes_updNode, if_pos rfl]
          show (w2.nodes self).parent = _
          rw [hw2]
          by_cases hsc : self = child <;> simp [World.updNode, hsc]
        · simp only [World.nodes_updNode, if_neg his]
          rw [hw2]
          by_cases hic : i = child <;> simp [World.updNode, hic]
      have hdescc : ∀ i, (w3.nodes i).children =
          if i = self then
            jsSpliceInsert (w1.nodes self).children index.toNat child
          else (w1.nodes i).children := by
        intro i
        rw [hw3]
        by_cases his : i = self
        · rw [his]
          simp [World.nodes_updNode, hch2 self]
        · simp only [World.nodes_updNode, if_neg his]
          rw [hch2 i]
      have hnd : (w1.nodes self).children.Nodup := g3 self
      have hcnm : child ∉ (w1.nodes self).children := hnomem self
      have hinv3 : TreeInv w3 := by
        refine ⟨?_, ?_, ?_⟩
        · intro i p hp
          rw [hdescp i] at hp
          rw [hdescc p]
          by_cases hic : i = child
          · rw [if_pos hic] at hp
            have hps : p = self := (Option.some.inj hp).symm
            rw [if_pos hps]
            exact (mem_jsSpliceInsert _ _ _ _).2 (Or.inl hic)
          · rw [if_neg hic] at hp
            have hmem := g1 i p hp
            by_cases hps : p = self
            · rw [if_pos hps]
              rw [hps] at hmem
              exact (mem_jsSpliceInsert _ _ _ _).2 (Or.inr hmem)
            · rw [if_neg hps]
              exact hmem
        · intro p i hp
          rw [hdescc p] at hp
          rw [hdescp i]
          by_cases hps : p = self
          · rw [if_pos hps] at hp
            rcases (mem_jsSpliceInsert _ _ _ _).1 hp with hic | hmem
            · rw [if_pos hic, hps]
            · have hic : i ≠ child := fun hc => hcnm (hc ▸ hmem)
              rw [if_neg hic, hps]
              exact g2 self i hmem
          · rw [if_neg hps] at hp
            have hic : i ≠ child := fun hc => hnomem p (hc ▸ hp)
            rw [if_neg hic]
            exact g2 p i hp
        · intro p
          rw [hdescc p]
          by_cases hps : p = self
          · rw [if_pos hps]
            exact jsSpliceInsert_nodup _ _ _ hnd hcnm
          · rw [if_neg hps]
            exact g3 p
      split at h
      · rename_i st hst3
        split at h
        · simp at h
        · rename_i w4 hw4
          simp only [Except.ok.injEq, Prod.mk.injEq] at h
          rw [← h.2]
          exact hinv3.structEq ((setStageRef_structEq fuel).1 _ _ _ _ hw4)
      · simp only [Except.ok.injEq, Prod.mk.injEq] at h
        rw [← h.2]
        exact hinv3
  · simp at h

theorem nodup_of_get?_unique (l : List Nat)
    (h : ∀ i j x, l.get? i = some x → l.get? j = some x → i = j) :
    l.Nodup := by
  induction l with
  | nil => exact List.nodup_nil
  | cons a t ih =>
    refine List.nodup_cons.2 ⟨?_, ?_⟩
    · intro hmem
      obtain ⟨j, hj⟩ := List.mem_iff_get?.1 hmem
      exact absurd (h (j + 1) 0 a (by simpa using hj) rfl)
        (Nat.succ_ne_zero j)
    · apply ih
      intro i j x hi hj
      have := h (i + 1) (j + 1) x (by simpa using hi) (by simpa using hj)
      omega

theorem getChildIndex_ok (w : World) (self a : Nat) (i : Int)
    (h : getChildIndex w self a = .ok i) :
    a ∈ (w.nodes self).children ∧ i = jsIndexOf (w.nodes self).children a := by
  simp only [getChildIndex] at h
  split at h
  · cases h
  · rename_i hcond
    have hmem : a ∈ (w.nodes self).children := by
      by_contra hc
      exact hcond ((jsIndexOf_eq_neg_one _ _).2 hc)
    exact ⟨hmem, (Except.ok.inj h).symm⟩

theorem swap_list_facts (l : List Nat) (a b : Nat) (hnd : l.Nodup)
    (hne : a ≠ b) (hma : a ∈ l) (hmb : b ∈ l) :
    (∀ x, x ∈ (l.set (jsIndexOf l a).toNat b).set (jsIndexOf l b).toNat a
      ↔ x ∈ l) ∧
    ((l.set (jsIndexOf l a).toNat b).set (jsIndexOf l b).toNat a).Nodup := by
  have ha0 := jsIndexOf_nonneg l a hma
  have hb0 := jsIndexOf_nonneg l b hmb
  set i1 := (jsIndexOf l a).toNat with hi1
  set i2 := (jsIndexOf l b).toNat with hi2
  have hget1 : l.get? i1 = some a := jsIndexOf_get l a hma
  have hget2 : l.get? i2 = some b := jsIndexOf_get l b hmb
  have hlen1 : i1 < l.length := by
    have := jsIndexOf_lt_length l a hma
    omega
  have hlen2 : i2 < l.length := by
    have := jsIndexOf_lt_length l b hmb
    omega
  have hne12 : i1 ≠ i2 := by
    intro hc
    rw [hc, hget2] at hget1
    exact hne (Option.some.inj hget1).symm
  set l2 := (l.set i1 b).set i2 a with hl2
  have h2get_i2 : l2.get? i2 = some a :=
    List.get?_set_eq_of_lt a (by simpa using hlen2)
  have h2get_i1 : l2.get? i1 = some b := by
    rw [hl2, List.get?_set_ne a _ (Ne.symm hne12)]
    exact List.get?_set_eq_of_lt b hlen1
  have h2get_other : ∀ j, j ≠ i1 → j ≠ i2 → l2.get? j = l.get? j := by
    intro j hj1 hj2
    rw [hl2, List.get?_set_ne a _ (fun hc => hj2 hc.symm),
      List.get?_set_ne b _ (fun hc => hj1 hc.symm)]
  constructor
  · intro x
    constructor
    · intro hx
      obtain ⟨j, hj⟩ := List.mem_iff_get?.1 hx
      by_cases hj2 : j = i2
      · rw [hj2, h2get_i2] at hj
        rw [← Option.some.inj hj]
        exact hma
      · by_cases hj1 : j = i1
        · rw [hj1, h2get_i1] at hj
          rw [← Option.some.inj hj]
          exact hmb
        · rw [h2get_other j hj1 hj2] at hj
          exact List.get?_mem hj
    · intro hx
      obtain ⟨j, hj⟩ := List.mem_iff_get?.1 hx
      by_cases hj1 : j = i1
      · rw [hj1, hget1] at hj
        rw [← Option.some.inj hj]
        exact List.get?_mem h2get_i2
      · by_cases hj2 : j = i2
        · rw [hj2, hget2] at hj
          rw [← Option.some.inj hj]
          exact List.get?_mem h2get_i1
        · exact List.get?_mem ((h2get_other j hj1 hj2).symm ▸ hj)
  · apply nodup_of_get?_unique
    intro i j x hi hj
    have key : ∀ k, l2.get? k = some x →
        (k = i2 ∧ x = a) ∨ (k = i1 ∧ x = b) ∨
        (k ≠ i1 ∧ k ≠ i2 ∧ l.get? k = some x) := by
      intro k hk
      by_cases hk2 : k = i2
      · rw [hk2, h2get_i2] at hk
        exact Or.inl ⟨hk2, (Option.some.inj hk).symm⟩
      · by_cases hk1 : k = i1
        · rw [hk1, h2get_i1] at hk
          exact Or.inr (Or.inl ⟨hk1, (Option.some.inj hk).symm⟩)
        · rw [h2get_other k hk1 hk2] at hk
          exact Or.inr (Or.inr ⟨hk1, hk2, hk⟩)
    rcases key i hi with ⟨hi2, hxa⟩ | ⟨hi1, hxb⟩ | ⟨hi1, hi2, hil⟩ <;>
      rcases key j hj with ⟨hj2, hxa'⟩ | ⟨hj1, hxb'⟩ | ⟨hj1, hj2, hjl⟩
    · rw [hi2, hj2]
    · exact absurd (hxa ▸ hxb') hne
    · exact absurd (nodup_get?_inj l hnd (hxa ▸ hjl) hget1) hj1
    · exact absurd (hxb ▸ hxa') (Ne.symm hne)
    · rw [hi1, hj1]
    · exact absurd (nodup_get?_inj l hnd (hxb ▸ hjl) hget2) hj2
    · exact absurd (nodup_get?_inj l hnd (hxa' ▸ hil) hget1) hi1
    · exact absurd (nodup_get?_inj l hnd (hxb' ▸ hil) hget2) hi2
    · exact nodup_get?_inj l hnd hil hjl

theorem treeInv_swapChildren (w : World) (self a b : Nat) (w' : World)
    (hinv : TreeInv w) (h : swapChildren w self a b = .ok w') :
    TreeInv w' := by
  obtain ⟨h1, h2, h3⟩ := hinv
  simp only [swapChildren] at h
  split at h
  · cases h
    exact ⟨h1, h2, h3⟩
  · rename_i hne
    split at h
    · simp at h
    · rename_i i1 heq1
      split at h
      · simp at h
      · rename_i i2 heq2
        split at h
        · simp at h
        · obtain ⟨hma, hi1⟩ := getChildIndex_ok w self a i1 heq1
          obtain ⟨hmb, hi2⟩ := getChildIndex_ok w self b i2 heq2
          obtain ⟨hmemiff, hnodup⟩ :=
            swap_list_facts (w.nodes self).children a b (h3 self) hne hma
              hmb
          simp only [Except.ok.injEq] at h
          rw [← h, hi1, hi2]
          set l2 := (((w.nodes self).children.set
            (jsIndexOf (w.nodes self).children a).toNat b).set
            (jsIndexOf (w.nodes self).children b).toNat a) with hl2
          set wnew := w.updNode self { w.nodes self with children := l2 }
            with hwnew
          have hdp : ∀ i, (wnew.nodes i).parent = (w.nodes i).parent := by
            intro i
            rw [hwnew]
            by_cases his : i = self <;> simp [World.updNode, his]
          have hdc : ∀ i, i ≠ self →
              (wnew.nodes i).children = (w.nodes i).children := by
            intro i his
            rw [hwnew]
            simp [World.updNode, his]
          have hdcs : (wnew.nodes self).children = l2 := by
            rw [hwnew]
            simp [World.updNode]
          refine ⟨?_, ?_, ?_⟩
          · intro i p hp
            rw [hdp i] at hp
            have hmem := h1 i p hp
            by_cases hps : p = self
            · rw [hps, hdcs]
              rw [hps] at hmem
              exact (hmemiff i).2 hmem
            · rw [hdc p hps]
              exact hmem
          · intro p i hp
            rw [hdp i]
            by_cases hps : p = self
            · rw [hps, hdcs] at hp
              rw [hps]
              exact h2 self i ((hmemiff i).1 hp)
            · rw [hdc p hps] at hp
              exact h2 p i hp
          · intro p
            by_cases hps : p = self
            · rw [hps, hdcs]
              exact hnodup
            · rw [hdc p hps]
              exact h3 p

theorem treeInv_setChildIndex (w : World) (self child : Nat) (index : Int)
    (w' : World) (hinv : TreeInv w)
    (h : setChildIndex w self child index = .ok w') : TreeInv w' := by
  obtain ⟨h1, h2, h3⟩ := hinv
  simp only [setChildIndex] at h
  split at h
  · simp at h
  · split at h
    · simp at h
    · rename_i cur hcur
      obtain ⟨hmem, hcureq⟩ := getChildIndex_ok w self child cur hcur
      simp only [Except.ok.injEq] at h
      rw [← h, hcureq]
      have hget : (w.nodes self).children.get?
          (jsIndexOf (w.nodes self).children child).toNat = some child :=
        jsIndexOf_get _ child hmem
      have hnm1 : child ∉ (w.nodes self).children.eraseIdx
          (jsIndexOf (w.nodes self).children child).toNat :=
        not_mem_eraseIdx_self _ _ _ (h3 self) hget
      have hnd1 : ((w.nodes self).children.eraseIdx
          (jsIndexOf (w.nodes self).children child).toNat).Nodup :=
        nodup_eraseIdx _ _ (h3 self)
      set lnew := jsSpliceInsert
        ((w.nodes self).children.eraseIdx
          (jsIndexOf (w.nodes self).children child).toNat)
        index.toNat child with hlnew
      set wnew := w.updNode self { w.nodes self with children := lnew }
        with hwnew
      have hdp : ∀ i, (wnew.nodes i).parent = (w.nodes i).parent := by
        intro i
        rw [hwnew]
        by_cases his : i = self <;> simp [World.updNode, his]
      have hdc : ∀ i, i ≠ self →
          (wnew.nodes i).children = (w.nodes i).children := by
        intro i his
        rw [hwnew]
        simp [World.updNode, his]
      have hdcs : (wnew.nodes self).children = lnew := by
        rw [hwnew]
        simp [World.updNode]
      refine ⟨?_, ?_, ?_⟩
      · intro i p hp
        rw [hdp i] at hp
        have hmemold := h1 i p hp
        by_cases hps : p = self
        · rw [hps, hdcs, hlnew]
          by_cases hic : i = child
          · exact (mem_jsSpliceInsert _ _ _ _).2 (Or.inl hic)
          · rw [hps] at hmemold
            exact (mem_jsSpliceInsert _ _ _ _).2
              (Or.inr (mem_eraseIdx_of_mem_ne _ _ i child hget hmemold hic))
        · rw [hdc p hps]
          exact hmemold
      · intro p i hp
        rw [hdp i]
        by_cases hps : p = self
        · rw [hps, hdcs, hlnew] at hp
          rw [hps]
          rcases (mem_jsSpliceInsert _ _ _ _).1 hp with hic | hmem1
          · rw [hic]
            exact h2 self child hmem
          · exact h2 self i (List.eraseIdx_subset _ _ hmem1)
        · rw [hdc p hps] at hp
          exact h2 p i hp
      · intro p
        by_cases hps : p = self
        · rw [hps, hdcs, hlnew]
          exact jsSpliceInsert_nodup _ _ _ hnd1 hnm1
        · rw [hdc p hps]
          exact h3 p

theorem treeInv_removeChildren (fuel : Nat) (w : World) (self : Nat)
    (bI eI : Option Int) (removed : List Nat) (w' : World)
    (hinv : TreeInv w)
    (h : removeChildren fuel w self bI eI = .ok (removed, w')) :
    TreeInv w' := by
  obtain ⟨h1, h2, h3⟩ := hinv
  simp only [removeChildren] at h
  split at h
  · split at h
    · simp at h
    · rename_i w2 hloop
      simp only [Except.ok.injEq, Prod.mk.injEq] at h
      obtain ⟨hrm, hw'⟩ := h
      subst hw'
      obtain ⟨hch, hremnone, hoth⟩ :=
        removeChildrenLoop_ok fuel self _ _ _ hloop
      set K := (bI.getD 0).toNat with hK
      set R := (eI.getD ((w.nodes self).children.length : Int) -
        bI.getD 0).toNat with hR
      set l := (w.nodes self).children with hl
      set rem := (l.drop K).take R with hrem
      set keep := l.take K ++ l.drop (K + R) with hkeep
      have hsplit : l = l.take K ++ (rem ++ l.drop (K + R)) := by
        rw [hrem]
        conv_lhs => rw [← List.take_append_drop K l]
        congr 1
        conv_lhs => rw [← List.take_append_drop R (l.drop K)]
        congr 1
        rw [List.drop_drop, Nat.add_comm]
      have hndapp : (l.take K ++ (rem ++ l.drop (K + R))).Nodup := by
        rw [← hsplit]
        exact h3 self
      rw [List.nodup_append] at hndapp
      obtain ⟨ndtake, ndmid, disjtake⟩ := hndapp
      rw [List.nodup_append] at ndmid
      obtain ⟨ndrem, nddrop, disjrd⟩ := ndmid
      have hF1 : ∀ x ∈ keep, x ∉ rem := by
        intro x hx hxr
        rw [hkeep] at hx
        rcases List.mem_append.1 hx with hx | hx
        · exact disjtake hx (List.mem_append.2 (Or.inl hxr))
        · exact disjrd hxr hx
      have hF2 : ∀ x ∈ rem, x ∈ l := by
        intro x hx
        rw [hsplit]
        exact List.mem_append.2 (Or.inr (List.mem_append.2 (Or.inl hx)))
      have hF3 : ∀ x ∈ keep, x ∈ l := by
        intro x hx
        rw [hkeep] at hx
        rw [hsplit]
        rcases List.mem_append.1 hx with hx | hx
        · exact List.mem_append.2 (Or.inl hx)
        · exact List.mem_append.2 (Or.inr (List.mem_append.2 (Or.inr hx)))
      have hF4 : ∀ x ∈ l, x ∉ rem → x ∈ keep := by
        intro x hx hxr
        rw [hsplit] at hx
        rw [hkeep]
        rcases List.mem_append.1 hx with hx | hx
        · exact List.mem_append.2 (Or.inl hx)
        · rcases List.mem_append.1 hx with hx | hx
          · exact absurd hx hxr
          · exact List.mem_append.2 (Or.inr hx)
      have hF5 : keep.Nodup := by
        rw [hkeep, List.nodup_append]
        exact ⟨ndtake, nddrop,
          fun a ha har => disjtake ha (List.mem_append.2 (Or.inr har))⟩
      have hp1 : ∀ i, ((w.updNode self
          { w.nodes self with children := keep }).nodes i).parent =
          (w.nodes i).parent := by
        intro i
        by_cases his : i = self <;> simp [World.updNode, his]
      have hc1 : ∀ i, i ≠ self → ((w.updNode self
          { w.nodes self with children := keep }).nodes i).children =
          (w.nodes i).children := by
        intro i his
        simp [World.updNode, his]
      have hc1s : ((w.updNode self
          { w.nodes self with children := keep }).nodes self).children =
          keep := by
        simp [World.updNode]
      refine ⟨?_, ?_, ?_⟩
      · intro i p hp
        by_cases hir : i ∈ rem
        · rw [hremnone i (hrm ▸ hir)] at hp
          cases hp
        · rw [hoth i (fun hc => hir (hrm ▸ hc)), hp1 i] at hp
          have hmem := h1 i p hp
          by_cases hps : p = self
          · rw [hps, hch self, hc1s]
            rw [hps] at hmem
            exact hF4 i hmem hir
          · rw [hch p, hc1 p hps]
            exact hmem
      · intro p i hp
        by_cases hps : p = self
        · rw [hps, hch self, hc1s] at hp
          have hil : i ∈ l := hF3 i hp
          have hir : i ∉ rem := hF1 i hp
          rw [hoth i (fun hc => hir (hrm ▸ hc)), hp1 i, hps]
          exact h2 self i hil
        · rw [hch p, hc1 p hps] at hp
          have hir : i ∉ rem := by
            intro hirc
            have hpi := h2 p i hp
            have hsi := h2 self i (hF2 i hirc)
            rw [hpi] at hsi
            exact hps (Option.some.inj hsi)
          rw [hoth i (fun hc => hir (hrm ▸ hc)), hp1 i]
          exact h2 p i hp
      · intro p
        by_cases hps : p = self
        · rw [hps, hch self, hc1s]
          exact hF5
        · rw [hch p, hc1 p hps]
          exact h3 p
  · split at h
    · simp only [Except.ok.injEq, Prod.mk.injEq] at h
      rw [← h.2]
      exact ⟨h1, h2, h3⟩
    · simp at h

theorem addChildAt_move_effects (fuel : Nat) (w : World) (A B child : Nat)
    (index : Int) (r : Nat) (w' : World) (hinv : TreeInv w)
    (hparA : (w.nodes child).parent = some A) (hAB : A ≠ B)
    (h : addChildAt fuel w B child index = .ok (r, w')) :
    (w'.nodes A).children.length + 1 = (w.nodes A).children.length ∧
    (w'.nodes B).children.length = (w.nodes B).children.length + 1 ∧
    (w'.nodes child).parent = some B := by
  obtain ⟨h1, h2, h3⟩ := hinv
  have hcmemA : child ∈ (w.nodes A).children := h1 child A hparA
  simp only [addChildAt] at h
  split at h
  · split at h
    · simp at h
    · rename_i w1 hstep
      have hdetach : (w1.nodes A).children.length + 1 =
          (w.nodes A).children.length ∧
          (w1.nodes B).children = (w.nodes B).children ∧
          (∀ i, (w1.nodes i).children = (w.nodes i).children ∨
            i = A) := by
        split at hstep
        · rename_i p hpar
          rw [hparA] at hpar
          have hpA : p = A := (Option.some.inj hpar).symm
          subst hpA
          split at hstep
          · simp at hstep
          · rename_i res w1' hrc
            simp only [Except.ok.injEq] at hstep
            subst hstep
            rcases removeChild_ok_effects fuel w p child res w1' hrc with
              ⟨hnm, -, -⟩ | ⟨hm, -, hq, hAch, -, -⟩
            · exact absurd hcmemA hnm
            · have h0 := jsIndexOf_nonneg _ child hm
              have hlt := jsIndexOf_lt_length _ child hm
              have hltn : (jsIndexOf (w.nodes p).children child).toNat <
                  (w.nodes p).children.length := by omega
              refine ⟨?_, hq B (fun hc => hAB hc.symm), ?_⟩
              · rw [hAch, List.length_eraseIdx_of_lt hltn]
                omega
              · intro i
                by_cases hip : i = p
                · exact Or.inr hip
                · exact Or.inl (hq i hip)
        · rename_i hpar
          rw [hparA] at hpar
          cases hpar
      obtain ⟨hA1, hB1, hall1⟩ := hdetach
      set w2 := w1.updNode child { w1.nodes child with parent := some B }
        with hw2
      set w3 := w2.updNode B
        { w2.nodes B with
          children :=
            jsSpliceInsert (w2.nodes B).children index.toNat child }
        with hw3
      have hch2 : ∀ i, (w2.nodes i).children = (w1.nodes i).children := by
        intro i
        rw [hw2]
        by_cases hic : i = child <;> simp [World.updNode, hic]
      have hA3 : (w3.nodes A).children = (w1.nodes A).children := by
        rw [hw3]
        simp only [World.nodes_updNode, if_neg hAB]
        exact hch2 A
      have hB3 : (w3.nodes B).children =
          jsSpliceInsert (w1.nodes B).children index.toNat child := by
        rw [hw3]
        simp [World.nodes_updNode, hch2 B]
      have hpar3 : (w3.nodes child).parent = some B := by
        rw [hw3, hw2]
        by_cases hcb : child = B <;> simp [World.updNode, hcb]
      split at h
      · rename_i st hst3
        split at h
        · simp at h
        · rename_i w4 hw4
          simp only [Except.ok.injEq, Prod.mk.injEq] at h
          rw [← h.2]
          have hse : StructEq w3 w4 :=
            (setStageRef_structEq fuel).1 _ _ _ _ hw4
          refine ⟨?_, ?_, ?_⟩
          · rw [(hse A).2, hA3]
            exact hA1
          · rw [(hse B).2, hB3, jsSpliceInsert_length, hB1]
          · rw [(hse child).1, hpar3]
      · simp only [Except.ok.injEq, Prod.mk.injEq] at h
        rw [← h.2]
        refine ⟨?_, ?_, ?_⟩
        · rw [hA3]
          exact hA1
        · rw [hB3, jsSpliceInsert_length, hB1]
        · exact hpar3
  · simp at h

/-- C5: the single-parent invariant — every set parent reference points at
the one container whose (duplicate-free) child list holds the node, so no
node is in two containers' child lists at once — is preserved by every
successful mutation operation, and a move of a child owned by container
`A` into a different container `B` detaches it from `A` first: `A` ends
one child shorter, `B` one child longer, and the child's parent reference
ends equal to `B`. -/
theorem mutation_single_parent_inv :
    (∀ (w : World), TreeInv w → ∀ i p q, i ∈ (w.nodes p).children →
      i ∈ (w.nodes q).children → p = q) ∧
    (∀ fuel (w : World) self child index r w', TreeInv w →
      addChildAt fuel w self child index = .ok (r, w') → TreeInv w') ∧
    (∀ fuel (w : World) self child r w', TreeInv w →
      addChild fuel w self child = .ok (r, w') → TreeInv w') ∧
    (∀ fuel (w : World) self child res w', TreeInv w →
      removeChild fuel w self child = .ok (res, w') → TreeInv w') ∧
    (∀ fuel (w : World) self index c w', TreeInv w →
      removeChildAt fuel w self index = .ok (c, w') → TreeInv w') ∧
    (∀ fuel (w : World) self bI eI removed w', TreeInv w →
      removeChildren fuel w self bI eI = .ok (removed, w') →
      TreeInv w') ∧
    (∀ (w : World) self a b w', TreeInv w →
      swapChildren w self a b = .ok w' → TreeInv w') ∧
    (∀ (w : World) self child index w', TreeInv w →
      setChildIndex w self child index = .ok w' → TreeInv w') ∧
    (∀ fuel (w : World) A B child index r w', TreeInv w →
      (w.nodes child).parent = some A → A ≠ B →
      addChildAt fuel w B child index = .ok (r, w') →
      (w'.nodes A).children.length + 1 = (w.nodes A).children.length ∧
      (w'.nodes B).children.length = (w.nodes B).children.length + 1 ∧
      (w'.nodes child).parent = some B) := by
  refine ⟨?_, ?_, ?_, ?_, ?_, ?_, ?_, ?_, ?_⟩
  · intro w hinv i p q hp hq
    have h1 := hinv.2.1 p i hp
    have h2 := hinv.2.1 q i hq
    rw [h1] at h2
    exact Option.some.inj h2
  · intro fuel w self child index r w' hinv h
    exact treeInv_addChildAt fuel w self child index r w' hinv h
  · intro fuel w self child r w' hinv h
    exact treeInv_addChildAt fuel w self child _ r w' hinv h
  · intro fuel w self child res w' hinv h
    exact treeInv_removeChild fuel w self child res w' hinv h
  · intro fuel w self index c w' hinv h
    exact treeInv_removeChildAt fuel w self index c w' hinv h
  · intro fuel w self bI eI removed w' hinv h
    exact treeInv_removeChildren fuel w self bI eI removed w' hinv h
  · intro w self a b w' hinv h
    exact treeInv_swapChildren w self a b w' hinv h
  · intro w self child index w' hinv h
    exact treeInv_setChildIndex w self child index w' hinv h
  · intro fuel w A B child index r w' hinv hparA hAB h
    exact addChildAt_move_effects fuel w A B child index r w' hinv hparA
      hAB h

/-- Two containers: node `0` owns child `2`, node `1` is empty. -/
def wMove : World :=
  { nodes := fun i =>
      if i = 0 then ⟨none, [2], none, false⟩
      else if i = 1 then ⟨none, [], none, false⟩
      else if i = 2 then ⟨some 0, [], none, false⟩
      else ⟨none, [], none, false⟩
    dirty := fun _ => false }

theorem treeInv_wMove : TreeInv wMove := by
  refine ⟨?_, ?_, ?_⟩
  · intro i p h
    by_cases h0 : i = 0
    · simp [wMove, h0] at h
    · by_cases h1 : i = 1
      · simp [wMove, h1] at h
      · by_cases h2 : i = 2
        · have hp : p = 0 := by
            simp [wMove, h2] at h
            omega
          simp [wMove, h2, hp]
        · simp [wMove, h0, h1, h2] at h
  · intro p i h
    by_cases hp0 : p = 0
    · simp [wMove, hp0] at h
      simp [wMove, h, hp0]
    · by_cases hp1 : p = 1
      · simp [wMove, hp1] at h
      · by_cases hp2 : p = 2
        · simp [wMove, hp2] at h
        · simp [wMove, hp0, hp1, hp2] at h
  · intro p
    by_cases hp0 : p = 0
    · simp [wMove, hp0]
    · by_cases hp1 : p = 1
      · simp [wMove, hp1]
      · by_cases hp2 : p = 2
        · simp [wMove, hp2]
        · simp [wMove, hp0, hp1, hp2]

/-- Witness for C5: moving child `2` from container `0` into container `1`
preserves the invariant and shifts one child from `0` to `1`. -/
theorem mutation_single_parent_inv_witness :
    TreeInv wMove ∧
    addChildAt 3 wMove 1 2 0 =
      .ok (2, exWorldAdd (addChildAt 3 wMove 1 2 0)) ∧
    TreeInv (exWorldAdd (addChildAt 3 wMove 1 2 0)) ∧
    ((exWorldAdd (addChildAt 3 wMove 1 2 0)).nodes 0).children.length + 1 =
      (wMove.nodes 0).children.length ∧
    ((exWorldAdd (addChildAt 3 wMove 1 2 0)).nodes 1).children.length =
      (wMove.nodes 1).children.length + 1 ∧
    ((exWorldAdd (addChildAt 3 wMove 1 2 0)).nodes 2).parent = some 1 := by
  have hok : addChildAt 3 wMove 1 2 0 =
      .ok (2, exWorldAdd (addChildAt 3 wMove 1 2 0)) := rfl
  obtain ⟨hA, hB, hpar⟩ :=
    mutation_single_parent_inv.2.2.2.2.2.2.2.2 3 wMove 0 1 2 0 2
      (exWorldAdd (addChildAt 3 wMove 1 2 0)) treeInv_wMove rfl
      (by decide) hok
  exact ⟨treeInv_wMove, hok,
    mutation_single_parent_inv.2.1 3 wMove 1 2 0 2
      (exWorldAdd (addChildAt 3 wMove 1 2 0)) treeInv_wMove hok,
    hA, hB, hpar⟩

/-! ## Attachment coherence: `removeStageReference` on a well-formed
attached subtree never dereferences a null stage.

The recursion visits exactly the members of child lists below the node it
is called on, so the nodes it touches are confined to that node's subtree,
where the subtree is cut out by the parent back-references.  On a forest —
child lists point back to their container, no duplicates, and the parent
references admit a rank function (no cycles) — distinct children's
subtrees are disjoint, so no node is ever visited twice, and each node
still has its original (non-null) stage when its own
`this.stage.dirty = true` check runs. -/

/-- The `k`-th iterated parent of `x` (`none` once the chain leaves the
tree). -/
def ancChain (w : World) : Nat → Nat → Option Nat
  | 0, x => some x
  | k + 1, x =>
    match (w.nodes x).parent with
    | none => none
    | some p => ancChain w k p

/-- `x` lies in the subtree rooted at `c`: some parent chain from `x`
reaches `c`. -/
def InSubtree (w : World) (c x : Nat) : Prop :=
  ∃ k, ancChain w k x = some c

/-- The back-reference half of the tree invariant: listed children point
back at their container, and child lists are duplicate-free.  (Unlike the
full `TreeInv` this survives the intermediate states of `removeChildren`,
where spliced-out children still carry their old parent reference.) -/
def ChildrenWF (w : World) : Prop :=
  (∀ p i, i ∈ (w.nodes p).children → (w.nodes i).parent = some p) ∧
  (∀ p, (w.nodes p).children.Nodup)

/-- `r` ranks the forest: parents have strictly larger rank, so parent
chains cannot cycle. -/
def RankOk (w : World) (r : Nat → Nat) : Prop :=
  ∀ x p, (w.nodes x).parent = some p → r x < r p

theorem treeInv_childrenWF {w : World} (h : TreeInv w) : ChildrenWF w :=
  ⟨h.2.1, h.2.2⟩

theorem ancChain_congr {w w' : World}
    (hp : ∀ i, (w'.nodes i).parent = (w.nodes i).parent) (k x : Nat) :
    ancChain w' k x = ancChain w k x := by
  induction k generalizing x with
  | zero => rfl
  | succ k ih =>
    simp only [ancChain, hp x]
    cases (w.nodes x).parent with
    | none => rfl
    | some p => exact ih p

theorem inSubtree_congr {w w' : World}
    (hp : ∀ i, (w'.nodes i).parent = (w.nodes i).parent) (c x : Nat) :
    InSubtree w' c x ↔ InSubtree w c x := by
  unfold InSubtree
  constructor
  · intro ⟨k, hk⟩
    exact ⟨k, (ancChain_congr hp k x).symm.trans hk⟩
  · intro ⟨k, hk⟩
    exact ⟨k, (ancChain_congr hp k x).trans hk⟩

theorem ancChain_shrink {wA wB : World}
    (hp : ∀ i, (wB.nodes i).parent = (wA.nodes i).parent ∨
      (wB.nodes i).parent = none) (k x c : Nat)
    (h : ancChain wB k x = some c) : ancChain wA k x = some c := by
  induction k generalizing x with
  | zero => exact h
  | succ k ih =>
    simp only [ancChain] at h ⊢
    rcases hpx : (wB.nodes x).parent with _ | p
    · rw [hpx] at h
      cases h
    · rw [hpx] at h
      rcases hp x with heq | hnone
      · rw [hpx] at heq
        rw [← heq]
        exact ih p h
      · rw [hpx] at hnone
        cases hnone

theorem inSubtree_shrink {wA wB : World}
    (hp : ∀ i, (wB.nodes i).parent = (wA.nodes i).parent ∨
      (wB.nodes i).parent = none) (c x : Nat)
    (h : InSubtree wB c x) : InSubtree wA c x := by
  obtain ⟨k, hk⟩ := h
  exact ⟨k, ancChain_shrink hp k x c hk⟩

theorem inSubtree_refl (w : World) (c : Nat) : InSubtree w c c :=
  ⟨0, rfl⟩

theorem inSubtree_of_parent (w : World) (c y : Nat)
    (h : (w.nodes y).parent = some c) : InSubtree w c y := by
  refine ⟨1, ?_⟩
  simp only [ancChain, h]

theorem ancChain_add (w : World) (k m x : Nat) :
    ancChain w (k + m) x =
      match ancChain w k x with
      | none => none
      | some y => ancChain w m y := by
  induction k generalizing x with
  | zero => rw [Nat.zero_add]; rfl
  | succ k ih =>
    have hs : k + 1 + m = (k + m) + 1 := by omega
    rw [hs]
    simp only [ancChain]
    cases (w.nodes x).parent with
    | none => rfl
    | some p => exact ih p

theorem inSubtree_trans {w : World} {c y x : Nat}
    (hxy : InSubtree w y x) (hyc : InSubtree w c y) : InSubtree w c x := by
  obtain ⟨k, hk⟩ := hxy
  obtain ⟨m, hm⟩ := hyc
  refine ⟨k + m, ?_⟩
  rw [ancChain_add, hk]
  exact hm

theorem ancChain_rank {w : World} {r : Nat → Nat} (hr : RankOk w r)
    (k x z : Nat) (h : ancChain w k x = some z) : r x ≤ r z := by
  induction k generalizing x with
  | zero => exact le_of_eq (congrArg r (Option.some.inj h))
  | succ k ih =>
    simp only [ancChain] at h
    rcases hpx : (w.nodes x).parent with _ | p
    · rw [hpx] at h
      cases h
    · rw [hpx] at h
      exact le_of_lt (lt_of_lt_of_le (hr x p hpx) (ih p h))

theorem inSubtree_rank {w : World} {r : Nat → Nat} (hr : RankOk w r)
    {c x : Nat} (h : InSubtree w c x) : r x ≤ r c := by
  obtain ⟨k, hk⟩ := h
  exact ancChain_rank hr k x c hk

theorem not_inSubtree_parent {w : World} {r : Nat → Nat} (hr : RankOk w r)
    {c y : Nat} (hpar : (w.nodes y).parent = some c) :
    ¬ InSubtree w y c := by
  intro hmem
  have h1 : r c ≤ r y := inSubtree_rank hr hmem
  have h2 : r y < r c := hr y c hpar
  omega

theorem subtree_disjoint {w : World} {r : Nat → Nat} (hr : RankOk w r)
    {s y y' x : Nat} (hy : (w.nodes y).parent = some s)
    (hy' : (w.nodes y').parent = some s) (hne : y ≠ y')
    (hx : InSubtree w y x) (hx' : InSubtree w y' x) : False := by
  obtain ⟨k, hk⟩ := hx
  obtain ⟨m, hm⟩ := hx'
  rcases Nat.le_total k m with hkm | hkm
  · obtain ⟨d, hd⟩ := Nat.exists_eq_add_of_le hkm
    rw [hd, ancChain_add, hk] at hm
    cases d with
    | zero => exact hne (Option.some.inj hm)
    | succ d =>
      simp only [ancChain, hy] at hm
      have h1 : r s ≤ r y' := ancChain_rank hr d s y' hm
      have h2 : r y' < r s := hr y' s hy'
      omega
  · obtain ⟨d, hd⟩ := Nat.exists_eq_add_of_le hkm
    rw [hd, ancChain_add, hm] at hk
    cases d with
    | zero => exact hne (Option.some.inj hk).symm
    | succ d =>
      simp only [ancChain, hy'] at hk
      have h1 : r s ≤ r y := ancChain_rank hr d s y hk
      have h2 : r y < r s := hr y s hy
      omega

theorem childrenWF_of_structEq {w w' : World} (hwf : ChildrenWF w)
    (hse : StructEq w w') : ChildrenWF w' := by
  refine ⟨?_, ?_⟩
  · intro p i hp
    rw [(hse p).2] at hp
    rw [(hse i).1]
    exact hwf.1 p i hp
  · intro p
    rw [(hse p).2]
    exact hwf.2 p

theorem rankOk_of_structEq {w w' : World} {r : Nat → Nat} (hr : RankOk w r)
    (hse : StructEq w w') : RankOk w' r := by
  intro x p hp
  rw [(hse x).1] at hp
  exact hr x p hp

/-- `removeStageReference` never touches the `_interactive` flags:
successful runs preserve them at every node. -/
theorem removeStageRef_interactive :
    ∀ fuel, (∀ w self w', removeStageRef fuel w self = .ok w' →
        ∀ x, (w'.nodes x).interactive = (w.nodes x).interactive) ∧
      (∀ cs w w', removeStageRefChildren fuel w cs = .ok w' →
        ∀ x, (w'.nodes x).interactive = (w.nodes x).interactive) := by
  intro fuel
  induction fuel with
  | zero =>
    constructor
    · intro w self w' h
      simp [removeStageRef] at h
    · intro cs
      induction cs with
      | nil =>
        intro w w' h
        simp only [removeStageRefChildren] at h
        cases h
        exact fun _ => rfl
      | cons c rest ih =>
        intro w w' h
        simp [removeStageRefChildren, removeStageRef] at h
  | succ fuel ihf =>
    have hone : ∀ w self w', removeStageRef (fuel + 1) w self = .ok w' →
        ∀ x, (w'.nodes x).interactive = (w.nodes x).interactive := by
      intro w self w' h x
      simp only [removeStageRef] at h
      rcases hm : removeStageRefChildren fuel w ((w.nodes self).children)
          with e | w1
      · rw [hm] at h
        simp at h
      · rw [hm] at h
        simp only at h
        have h01 : (w1.nodes x).interactive = (w.nodes x).interactive :=
          ihf.2 _ _ _ hm x
        by_cases hint : (w1.nodes self).interactive
        · rw [if_pos hint] at h
          rcases hst : (w1.nodes self).stage with _ | st
          · rw [hst] at h
            simp at h
          · rw [hst] at h
            simp only [Except.ok.injEq] at h
            subst h
            by_cases hx : x = self
            · subst hx
              simp [World.updNode, World.setDirty, h01]
            · simp [World.updNode, World.setDirty, hx, h01]
        · rw [if_neg hint] at h
          simp only [Except.ok.injEq] at h
          subst h
          by_cases hx : x = self
          · subst hx
            simp [World.updNode, h01]
          · simp [World.updNode, hx, h01]
    refine ⟨hone, ?_⟩
    intro cs
    induction cs with
    | nil =>
      intro w w' h
      simp only [removeStageRefChildren] at h
      cases h
      exact fun _ => rfl
    | cons c rest ih =>
      intro w w' h
      simp only [removeStageRefChildren] at h
      rcases hm : removeStageRef (fuel + 1) w c with e | wmid
      · rw [hm] at h
        simp at h
      · rw [hm] at h
        simp only at h
        intro x
        exact (ih _ _ h x).trans (hone _ _ _ hm x)

/-- Successful `removeStageReference` runs only clear stages inside the
subtree of the node they were called on (given the child back-references
of `ChildrenWF`): every node outside keeps its stage. -/
theorem removeStageRef_untouched :
    ∀ fuel, (∀ w self w', ChildrenWF w →
        removeStageRef fuel w self = .ok w' →
        ∀ x, ¬ InSubtree w self x →
          (w'.nodes x).stage = (w.nodes x).stage) ∧
      (∀ cs w w', ChildrenWF w →
        removeStageRefChildren fuel w cs = .ok w' →
        ∀ x, (∀ c ∈ cs, ¬ InSubtree w c x) →
          (w'.nodes x).stage = (w.nodes x).stage) := by
  intro fuel
  induction fuel with
  | zero =>
    constructor
    · intro w self w' _ h
      simp [removeStageRef] at h
    · intro cs
      induction cs with
      | nil =>
        intro w w' _ h
        simp only [removeStageRefChildren] at h
        cases h
        exact fun _ _ => rfl
      | cons c rest ih =>
        intro w w' _ h
        simp [removeStageRefChildren, removeStageRef] at h
  | succ fuel ihf =>
    have hone : ∀ w self w', ChildrenWF w →
        removeStageRef (fuel + 1) w self = .ok w' →
        ∀ x, ¬ InSubtree w self x →
          (w'.nodes x).stage = (w.nodes x).stage := by
      intro w self w' hwf h x hx
      have hxself : x ≠ self := by
        intro he
        exact hx (he ▸ inSubtree_refl w self)
      simp only [removeStageRef] at h
      rcases hm : removeStageRefChildren fuel w ((w.nodes self).children)
          with e | w1
      · rw [hm] at h
        simp at h
      · rw [hm] at h
        simp only at h
        have h01 : (w1.nodes x).stage = (w.nodes x).stage := by
          refine ihf.2 _ _ _ hwf hm x ?_
          intro c hc hcx
          exact hx (inSubtree_trans hcx
            (inSubtree_of_parent w self c (hwf.1 self c hc)))
        by_cases hint : (w1.nodes self).interactive
        · rw [if_pos hint] at h
          rcases hst : (w1.nodes self).stage with _ | st
          · rw [hst] at h
            simp at h
          · rw [hst] at h
            simp only [Except.ok.injEq] at h
            subst h
            simp [World.updNode, World.setDirty, hxself, h01]
        · rw [if_neg hint] at h
          simp only [Except.ok.injEq] at h
          subst h
          simp [World.updNode, hxself, h01]
    refine ⟨hone, ?_⟩
    intro cs
    induction cs with
    | nil =>
      intro w w' _ h
      simp only [removeStageRefChildren] at h
      cases h
      exact fun _ _ => rfl
    | cons c rest ih =>
      intro w w' hwf h x hx
      simp only [removeStageRefChildren] at h
      rcases hm : removeStageRef (fuel + 1) w c with e | wmid
      · rw [hm] at h
        simp at h
      · rw [hm] at h
        simp only at h
        have hse : StructEq w wmid :=
          (removeStageRef_structEq (fuel + 1)).1 _ _ _ hm
        have hp : ∀ i, (wmid.nodes i).parent = (w.nodes i).parent :=
          fun i => (hse i).1
        have hrest : (wmid.nodes x).stage = (w.nodes x).stage :=
          hone _ _ _ hwf hm x (hx c (List.mem_cons_self c rest))
        refine ((ih _ _ (childrenWF_of_structEq hwf hse) h x ?_).trans hrest)
        intro c' hc' hcx
        exact hx c' (List.mem_cons_of_mem c hc')
          ((inSubtree_congr hp c' x).mp hcx)

/-- On a well-formed forest (child back-references, no duplicate
listings, a rank certifying acyclic parent chains) whose subtree nodes
all satisfy "interactive implies attached", `removeStageReference` can
fail only by running out of fuel — the null-stage dereference is
unreachable, because the recursion visits each subtree node at most once
and finds its original stage still in place. -/
theorem removeStageRef_success :
    ∀ fuel, (∀ w self (r : Nat → Nat) e we, ChildrenWF w → RankOk w r →
        (∀ x, InSubtree w self x → (w.nodes x).interactive = true →
          (w.nodes x).stage.isSome = true) →
        removeStageRef fuel w self = .error (e, we) → e = .noFuel) ∧
      (∀ cs w (s : Nat) (r : Nat → Nat) e we, ChildrenWF w → RankOk w r →
        cs.Nodup → (∀ c ∈ cs, (w.nodes c).parent = some s) →
        (∀ c ∈ cs, ∀ x, InSubtree w c x → (w.nodes x).interactive = true →
          (w.nodes x).stage.isSome = true) →
        removeStageRefChildren fuel w cs = .error (e, we) → e = .noFuel) := by
  intro fuel
  induction fuel with
  | zero =>
    constructor
    · intro w self r e we _ _ _ h
      simp only [removeStageRef, Except.error.injEq, Prod.mk.injEq] at h
      exact h.1.symm
    · intro cs
      induction cs with
      | nil =>
        intro w s r e we _ _ _ _ _ h
        simp [removeStageRefChildren] at h
      | cons c rest ih =>
        intro w s r e we _ _ _ _ _ h
        simp only [removeStageRefChildren, removeStageRef,
          Except.error.injEq, Prod.mk.injEq] at h
        exact h.1.symm
  | succ fuel ihf =>
    have hone : ∀ w self (r : Nat → Nat) e we, ChildrenWF w → RankOk w r →
        (∀ x, InSubtree w self x → (w.nodes x).interactive = true →
          (w.nodes x).stage.isSome = true) →
        removeStageRef (fuel + 1) w self = .error (e, we) → e = .noFuel := by
      intro w self r e we hwf hr hst h
      simp only [removeStageRef] at h
      rcases hm : removeStageRefChildren fuel w ((w.nodes self).children)
          with em | w1
      · rw [hm] at h
        simp only [Except.error.injEq] at h
        subst h
        refine ihf.2 ((w.nodes self).children) w self r e we hwf hr
          (hwf.2 self) (hwf.1 self) ?_ hm
        intro c hc x hx hint
        exact hst x (inSubtree_trans hx
          (inSubtree_of_parent w self c (hwf.1 self c hc))) hint
      · rw [hm] at h
        simp only at h
        by_cases hint : (w1.nodes self).interactive
        · rw [if_pos hint] at h
          rcases hst1 : (w1.nodes self).stage with _ | st
          · exfalso
            have hsame : (w1.nodes self).stage = (w.nodes self).stage := by
              refine (removeStageRef_untouched fuel).2
                ((w.nodes self).children) w w1 hwf hm self ?_
              intro c hc
              exact not_inSubtree_parent hr (hwf.1 self c hc)
            have hintw : (w.nodes self).interactive = true :=
              ((removeStageRef_interactive fuel).2
                ((w.nodes self).children) w w1 hm self).symm.trans hint
            have hsome : (w.nodes self).stage.isSome = true :=
              hst self (inSubtree_refl w self) hintw
            rw [← hsame, hst1] at hsome
            simp at hsome
          · rw [hst1] at h
            simp at h
        · rw [if_neg hint] at h
          simp at h
    refine ⟨hone, ?_⟩
    intro cs
    induction cs with
    | nil =>
      intro w s r e we _ _ _ _ _ h
      simp [removeStageRefChildren] at h
    | cons c rest ih =>
      intro w s r e we hwf hr hnd hpar hst h
      simp only [removeStageRefChildren] at h
      rcases hm : removeStageRef (fuel + 1) w c with em | wmid
      · rw [hm] at h
        simp only [Except.error.injEq] at h
        subst h
        exact hone w c r e we hwf hr
          (hst c (List.mem_cons_self c rest)) hm
      · rw [hm] at h
        simp only at h
        have hse : StructEq w wmid :=
          (removeStageRef_structEq (fuel + 1)).1 _ _ _ hm
        have hp : ∀ i, (wmid.nodes i).parent = (w.nodes i).parent :=
          fun i => (hse i).1
        refine ih wmid s r e we (childrenWF_of_structEq hwf hse) (rankOk_of_structEq hr hse)
          (List.Nodup.of_cons hnd) ?_ ?_ h
        · intro c' hc'
          exact (hp c').trans (hpar c' (List.mem_cons_of_mem c hc'))
        · intro c' hc' x hx hint
          have hxw : InSubtree w c' x := (inSubtree_congr hp c' x).mp hx
          have hne : c ≠ c' := by
            intro he
            exact (List.Nodup.not_mem hnd) (he ▸ hc')
          have hnotc : ¬ InSubtree w c x := fun hcx =>
            subtree_disjoint hr (hpar c (List.mem_cons_self c rest))
              (hpar c' (List.mem_cons_of_mem c hc')) hne hcx hxw
          have hstx : (wmid.nodes x).stage = (w.nodes x).stage :=
            (removeStageRef_untouched (fuel + 1)).1 w c wmid hwf hm x hnotc
          have hintx : (w.nodes x).interactive = true :=
            ((removeStageRef_interactive (fuel + 1)).1 w c wmid hm x).symm.trans
              hint
          rw [hstx]
          exact hst c' (List.mem_cons_of_mem c hc') x hxw hintx

/-- The detach loop of `removeChildren`, run on a duplicate-free batch of
nodes that all point back at the container but are no longer listed
anywhere (the post-splice state), fails only by running out of fuel: each
`removeStageReference` call it makes meets the conditions of
`removeStageRef_success`, and the parent-clearing between iterations only
shrinks ancestor chains. -/
theorem removeChildrenLoop_success (fuel : Nat) (self : Nat)
    (r : Nat → Nat) :
    ∀ (cs : List Nat) (w : World) e we, ChildrenWF w → RankOk w r →
      cs.Nodup → (∀ y ∈ cs, (w.nodes y).parent = some self) →
      (∀ y ∈ cs, ∀ p, y ∉ (w.nodes p).children) →
      (∀ y ∈ cs, ∀ x, InSubtree w y x → (w.nodes x).interactive = true →
        (w.nodes x).stage.isSome = true) →
      removeChildrenLoop fuel w self cs = .error (e, we) → e = .noFuel := by
  intro cs
  induction cs with
  | nil =>
    intro w e we _ _ _ _ _ _ h
    simp [removeChildrenLoop] at h
  | cons child rest ih =>
    intro w e we hwf hr hnd hpar hnl hst h
    simp only [removeChildrenLoop] at h
    have hstep : ∀ w1 : World, StructEq w w1 →
        (∀ x, (w1.nodes x).interactive = (w.nodes x).interactive) →
        (∀ x, x ≠ child → ¬ InSubtree w child x →
          (w1.nodes x).stage = (w.nodes x).stage) →
        removeChildrenLoop fuel
          (w1.updNode child { w1.nodes child with parent := none })
          self rest = .error (e, we) → e = .noFuel := by
      intro w1 hse hintp hstp h2
      set w2 := w1.updNode child { w1.nodes child with parent := none }
        with hw2
      have hch2 : ∀ p, (w2.nodes p).children = (w.nodes p).children := by
        intro p
        by_cases hpc : p = child <;>
          simp [hw2, World.updNode, hpc, (hse p).2, (hse child).2]
      have hpar2 : ∀ i, (w2.nodes i).parent = (w.nodes i).parent ∨
          (w2.nodes i).parent = none := by
        intro i
        by_cases hic : i = child
        · right
          simp [hw2, World.updNode, hic]
        · left
          simp [hw2, World.updNode, hic, (hse i).1]
      have hint2 : ∀ x, (w2.nodes x).interactive = (w.nodes x).interactive := by
        intro x
        by_cases hxc : x = child <;>
          simp [hw2, World.updNode, hxc, hintp x, hintp child]
      refine ih w2 e we ⟨?_, ?_⟩ ?_ (List.Nodup.of_cons hnd) ?_ ?_ ?_ h2
      · intro p i hi
        rw [hch2 p] at hi
        have hic : i ≠ child := by
          intro he
          exact hnl child (List.mem_cons_self child rest) p (he ▸ hi)
        rcases hpar2 i with hp | hp
        · rw [hp]
          exact hwf.1 p i hi
        · exfalso
          apply hic
          by_contra hne
          revert hp
          simp [hw2, World.updNode, hic, (hse i).1]
          rw [hwf.1 p i hi]
          simp
      · intro p
        rw [hch2 p]
        exact hwf.2 p
      · intro x p hp
        rcases hpar2 x with hx | hx
        · rw [hx] at hp
          exact hr x p hp
        · rw [hx] at hp
          cases hp
      · intro y hy
        have hyc : y ≠ child := by
          intro he
          exact (List.Nodup.not_mem hnd) (he ▸ hy)
        have : (w2.nodes y).parent = (w.nodes y).parent := by
          simp [hw2, World.updNode, hyc, (hse y).1]
        rw [this]
        exact hpar y (List.mem_cons_of_mem child hy)
      · intro y hy p
        rw [hch2 p]
        exact hnl y (List.mem_cons_of_mem child hy) p
      · intro y hy x hx hint
        have hxw : InSubtree w y x := by
          refine inSubtree_shrink hpar2 y x hx
        have hne : child ≠ y := by
          intro he
          exact (List.Nodup.not_mem hnd) (he ▸ hy)
        have hxc : x ≠ child := by
          intro he
          exact subtree_disjoint hr
            (hpar child (List.mem_cons_self child rest))
            (hpar y (List.mem_cons_of_mem child hy)) hne
            (he ▸ inSubtree_refl w child) (he ▸ hxw)
        have hnotc : ¬ InSubtree w child x := fun hcx =>
          subtree_disjoint hr
            (hpar child (List.mem_cons_self child rest))
            (hpar y (List.mem_cons_of_mem child hy)) hne hcx hxw
        have hst2 : (w2.nodes x).stage = (w.nodes x).stage := by
          have : (w2.nodes x).stage = (w1.nodes x).stage := by
            simp [hw2, World.updNode, hxc]
          rw [this]
          exact hstp x hxc hnotc
        rw [hst2]
        refine hst y (List.mem_cons_of_mem child hy) x hxw ?_
        rw [← hint2 x]
        exact hint
    by_cases hg : (w.nodes self).stage.isSome = true
    · rw [if_pos hg] at h
      rcases hrs : removeStageRef fuel w child with em | w1
      · rw [hrs] at h
        simp only [Except.error.injEq] at h
        subst h
        exact (removeStageRef_success fuel).1 w child r e we hwf hr
          (hst child (List.mem_cons_self child rest)) hrs
      · rw [hrs] at h
        have hse : StructEq w w1 := (removeStageRef_structEq fuel).1 _ _ _ hrs
        exact hstep w1 hse
          (fun x => (removeStageRef_interactive fuel).1 w child w1 hrs x)
          (fun x _ hnc =>
            (removeStageRef_untouched fuel).1 w child w1 hwf hrs x hnc) h
    · rw [if_neg hg] at h
      exact hstep w (StructEq.refl w) (fun _ => rfl) (fun _ _ _ => rfl) h

/-- `removeChildAt` on a well-formed attached tree whose interactive nodes
all carry a stage reference fails only at the index check or on fuel
exhaustion: the `removeStageReference` call behind the `if (this.stage)`
guard cannot hit the null-stage dereference. -/
theorem removeChildAt_attached_errors (fuel : Nat) (w : World)
    (self : Nat) (index : Int) (r : Nat → Nat) (err : Err) (we : World)
    (hinv : TreeInv w) (hr : RankOk w r)
    (hstage : ∀ i, (w.nodes i).interactive = true →
      (w.nodes i).stage.isSome = true)
    (h : removeChildAt fuel w self index = .error (err, we)) :
    err = .outOfBounds ∨ err = .noFuel := by
  simp only [removeChildAt] at h
  split at h
  · rename_i eg hg
    simp only [Except.error.injEq, Prod.mk.injEq] at h
    left
    exact h.1.symm.trans (getChildAt_error w self index eg hg)
  · rename_i child hg
    by_cases hguard : (w.nodes self).stage.isSome = true
    · rw [if_pos hguard] at h
      rcases hrs : removeStageRef fuel w child with em | w1
      · rw [hrs] at h
        simp only [Except.error.injEq] at h
        subst h
        right
        exact (removeStageRef_success fuel).1 w child r err we
          (treeInv_childrenWF hinv) hr (fun x _ hint => hstage x hint) hrs
      · rw [hrs] at h
        simp at h
    · rw [if_neg hguard] at h
      simp at h

/-- `removeChildren` on a well-formed attached tree whose interactive
nodes all carry a stage reference fails only at the range check or on
fuel exhaustion: every `removeStageReference` call its detach loop makes
is on a freshly spliced-out child of the container, and the loop meets
the conditions of `removeChildrenLoop_success`. -/
theorem removeChildren_attached_errors (fuel : Nat) (w : World)
    (self : Nat) (bI eI : Option Int) (r : Nat → Nat) (err : Err)
    (we : World) (hinv : TreeInv w) (hr : RankOk w r)
    (hstage : ∀ i, (w.nodes i).interactive = true →
      (w.nodes i).stage.isSome = true)
    (h : removeChildren fuel w self bI eI = .error (err, we)) :
    err = .range ∨ err = .noFuel := by
  obtain ⟨h1, h2, h3⟩ := hinv
  simp only [removeChildren] at h
  split at h
  · split at h
    · rename_i em hloop
      simp only [Except.error.injEq] at h
      subst h
      right
      set K := (bI.getD 0).toNat with hK
      set R := (eI.getD ((w.nodes self).children.length : Int) -
        bI.getD 0).toNat with hR
      set l := (w.nodes self).children with hl
      set rem := (l.drop K).take R with hrem
      set keep := l.take K ++ l.drop (K + R) with hkeep
      have hsplit : l = l.take K ++ (rem ++ l.drop (K + R)) := by
        rw [hrem]
        conv_lhs => rw [← List.take_append_drop K l]
        congr 1
        conv_lhs => rw [← List.take_append_drop R (l.drop K)]
        congr 1
        rw [List.drop_drop, Nat.add_comm]
      have hndapp : (l.take K ++ (rem ++ l.drop (K + R))).Nodup := by
        rw [← hsplit]
        exact h3 self
      rw [List.nodup_append] at hndapp
      obtain ⟨ndtake, ndmid, disjtake⟩ := hndapp
      rw [List.nodup_append] at ndmid
      obtain ⟨ndrem, nddrop, disjrd⟩ := ndmid
      have hF1 : ∀ x ∈ keep, x ∉ rem := by
        intro x hx hxr
        rw [hkeep] at hx
        rcases List.mem_append.1 hx with hx | hx
        · exact disjtake hx (List.mem_append.2 (Or.inl hxr))
        · exact disjrd hxr hx
      have hF2 : ∀ x ∈ rem, x ∈ l := by
        intro x hx
        rw [hsplit]
        exact List.mem_append.2 (Or.inr (List.mem_append.2 (Or.inl hx)))
      have hF3 : ∀ x ∈ keep, x ∈ l := by
        intro x hx
        rw [hkeep] at hx
        rw [hsplit]
        rcases List.mem_append.1 hx with hx | hx
        · exact List.mem_append.2 (Or.inl hx)
        · exact List.mem_append.2 (Or.inr (List.mem_append.2 (Or.inr hx)))
      have hF5 : keep.Nodup := by
        rw [hkeep, List.nodup_append]
        exact ⟨ndtake, nddrop,
          fun a ha har => disjtake ha (List.mem_append.2 (Or.inr har))⟩
      set w1 := w.updNode self { w.nodes self with children := keep }
        with hw1
      have hp1 : ∀ i, (w1.nodes i).parent = (w.nodes i).parent := by
        intro i
        by_cases his : i = self <;> simp [hw1, World.updNode, his]
      have hc1 : ∀ i, i ≠ self →
          (w1.nodes i).children = (w.nodes i).children := by
        intro i his
        simp [hw1, World.updNode, his]
      have hc1s : (w1.nodes self).children = keep := by
        simp [hw1, World.updNode]
      have hfield : ∀ x, (w1.nodes x).stage = (w.nodes x).stage ∧
          (w1.nodes x).interactive = (w.nodes x).interactive := by
        intro x
        by_cases hxs : x = self <;>
          simp [hw1, World.updNode, hxs]
      refine removeChildrenLoop_success fuel self r rem w1 err we
        ⟨?_, ?_⟩ ?_ ndrem ?_ ?_ ?_ hloop
      · intro p i hi
        by_cases hps : p = self
        · rw [hps, hc1s] at hi
          rw [hp1 i, hps]
          exact h2 self i (hF3 i hi)
        · rw [hc1 p hps] at hi
          rw [hp1 i]
          exact h2 p i hi
      · intro p
        by_cases hps : p = self
        · rw [hps, hc1s]
          exact hF5
        · rw [hc1 p hps]
          exact h3 p
      · intro x p hxp
        rw [hp1 x] at hxp
        exact hr x p hxp
      · intro y hy
        rw [hp1 y]
        exact h2 self y (hF2 y hy)
      · intro y hy p
        by_cases hps : p = self
        · rw [hps, hc1s]
          intro hyk
          exact hF1 y hyk hy
        · rw [hc1 p hps]
          intro hyp
          have hpy := h2 p y hyp
          have hsy := h2 self y (hF2 y hy)
          rw [hpy] at hsy
          exact hps (Option.some.inj hsy)
      · intro y _ x _ hint
        rw [(hfield x).1]
        refine hstage x ?_
        rw [← (hfield x).2]
        exact hint
    · simp at h
  · split at h
    · simp at h
    · simp only [Except.error.injEq, Prod.mk.injEq] at h
      left
      exact h.1.symm

/-- A heap whose node `0` is interactive with no children and no stage. -/
def wInter : World :=
  { nodes := fun i =>
      if i = 0 then ⟨none, [], none, true⟩ else ⟨none, [], none, false⟩
    dirty := fun _ => false }

/-- A heap whose node `0` is interactive with no children and stage `5`. -/
def wInterSt : World :=
  { nodes := fun i =>
      if i = 0 then ⟨none, [], some 5, true⟩ else ⟨none, [], none, false⟩
    dirty := fun _ => false }

/-- An attached tree: container `0` (stage `7`) owns the interactive
child `1` (stage `7`); everything else is detached and inert. -/
def wAtt : World :=
  { nodes := fun i =>
      if i = 0 then ⟨none, [1], some 7, false⟩
      else if i = 1 then ⟨some 0, [], some 7, true⟩
      else ⟨none, [], none, false⟩
    dirty := fun _ => false }

/-- A rank for `wAtt`: the root outranks its child. -/
def rAtt : Nat → Nat := fun i => if i = 0 then 1 else 0

theorem treeInv_wAtt : TreeInv wAtt := by
  refine ⟨?_, ?_, ?_⟩
  · intro i p h
    by_cases h0 : i = 0
    · simp [wAtt, h0] at h
    · by_cases h1 : i = 1
      · have hp : p = 0 := by
          simp [wAtt, h1] at h
          omega
        simp [wAtt, h1, hp]
      · simp [wAtt, h0, h1] at h
  · intro p i h
    by_cases hp0 : p = 0
    · simp [wAtt, hp0] at h
      simp [wAtt, h, hp0]
    · by_cases hp1 : p = 1
      · simp [wAtt, hp1] at h
      · simp [wAtt, hp0, hp1] at h
  · intro p
    by_cases hp0 : p = 0
    · simp [wAtt, hp0]
    · by_cases hp1 : p = 1
      · simp [wAtt, hp1]
      · simp [wAtt, hp0, hp1]

theorem rankOk_wAtt : RankOk wAtt rAtt := by
  intro x p h
  by_cases h0 : x = 0
  · simp [wAtt, h0] at h
  · by_cases h1 : x = 1
    · have hp : p = 0 := by
        simp [wAtt, h1] at h
        omega
      simp [rAtt, h1, hp]
    · simp [wAtt, h0, h1] at h

theorem stage_wAtt : ∀ i, (wAtt.nodes i).interactive = true →
    (wAtt.nodes i).stage.isSome = true := by
  intro i h
  by_cases h0 : i = 0
  · simp [wAtt, h0]
  · by_cases h1 : i = 1
    · simp [wAtt, h1]
    · simp [wAtt, h0, h1] at h

/-- C10: (a) `removeStageReference` on an interactive node whose stage
reference is already null throws (the `this.stage.dirty = true` null
dereference) once the recursion over the children has returned; (b)
`removeChildAt` on a container whose own stage reference is unset never
reaches `removeStageReference` — its only possible failure is the index
check, which leaves the heap untouched; (c) likewise `removeChildren` can
then only fail with the RangeError; (d) on an interactive childless node
whose stage reference is set, `removeStageReference` succeeds, marking the
stage dirty and clearing the reference; (e) on a stage-attached container
in a well-formed tree (single-parent invariant plus a rank certifying
acyclic parent chains) all of whose interactive nodes carry a stage
reference, `removeChildAt` — which there does invoke
`removeStageReference` on the removed child — can still fail only at the
index check or by fuel exhaustion, never at the null-stage dereference;
(f) under the same conditions `removeChildren` can fail only at the range
check or by fuel exhaustion. -/
theorem removeStageReference_null_guard :
    (∀ fuel (w : World) self w1, (w1.nodes self).interactive = true →
      removeStageRefChildren fuel w ((w.nodes self).children) = .ok w1 →
      (w1.nodes self).stage = none →
      removeStageRef (fuel + 1) w self = .error (.nullStage, w1)) ∧
    (∀ fuel (w : World) self index e w',
      (w.nodes self).stage = none →
      removeChildAt fuel w self index = .error (e, w') →
      e = .outOfBounds ∧ w' = w) ∧
    (∀ fuel (w : World) self bI eI e w',
      (w.nodes self).stage = none →
      removeChildren fuel w self bI eI = .error (e, w') →
      e = .range ∧ w' = w) ∧
    (∀ fuel (w : World) self st, (w.nodes self).interactive = true →
      (w.nodes self).children = [] → (w.nodes self).stage = some st →
      removeStageRef (fuel + 1) w self =
        .ok ((w.setDirty st).updNode self
          { (w.setDirty st).nodes self with stage := none })) ∧
    (∀ fuel (w : World) self index e w' (r : Nat → Nat),
      TreeInv w → RankOk w r →
      (∀ i, (w.nodes i).interactive = true →
        (w.nodes i).stage.isSome = true) →
      removeChildAt fuel w self index = .error (e, w') →
      e = .outOfBounds ∨ e = .noFuel) ∧
    (∀ fuel (w : World) self bI eI e w' (r : Nat → Nat),
      TreeInv w → RankOk w r →
      (∀ i, (w.nodes i).interactive = true →
        (w.nodes i).stage.isSome = true) →
      removeChildren fuel w self bI eI = .error (e, w') →
      e = .range ∨ e = .noFuel) := by
  refine ⟨?_, ?_, ?_, ?_, ?_, ?_⟩
  · intro fuel w self w1 hint hch hst
    unfold removeStageRef
    rw [hch]
    simp only [hint, if_true, hst]
  · intro fuel w self index e w' hst h
    simp only [removeChildAt] at h
    split at h
    · rename_i eg hg
      simp only [Except.error.injEq, Prod.mk.injEq] at h
      exact ⟨h.1.symm.trans (getChildAt_error w self index eg hg),
        h.2.symm⟩
    · rename_i child hg
      have hguard : (w.nodes self).stage.isSome = false := by
        rw [hst]
        rfl
      rw [hguard] at h
      simp at h
  · intro fuel w self bI eI e w' hst h
    simp only [removeChildren] at h
    split at h
    · split at h
      · rename_i el heq
        exact absurd heq
          (removeChildrenLoop_stage_none_ne fuel self _ _
            (by simp [World.updNode, hst]) _)
      · cases h
    · split at h
      · cases h
      · cases h
        exact ⟨rfl, rfl⟩
  · intro fuel w self st hint hch hst
    unfold removeStageRef
    rw [hch]
    have hempty : removeStageRefChildren fuel w [] = .ok w := by
      simp only [removeStageRefChildren]
    rw [hempty]
    simp only [hint, if_true, hst]
  · intro fuel w self index e w' r hinv hr hstage h
    exact removeChildAt_attached_errors fuel w self index r e w'
      hinv hr hstage h
  · intro fuel w self bI eI e w' r hinv hr hstage h
    exact removeChildren_attached_errors fuel w self bI eI r e w'
      hinv hr hstage h

/-- Witness for C10 at concrete heaps: parts (a)-(d) as before, part (e)
at a fuel-starved removal of the attached interactive child `1` from the
attached container `0` of `wAtt` (the error is fuel exhaustion, not the
null-stage dereference), and part (f) at an inverted range on `wAtt`. -/
theorem removeStageReference_null_guard_witness :
    removeStageRef 1 wInter 0 = .error (.nullStage, wInter) ∧
    (Err.outOfBounds = Err.outOfBounds ∧ w0 = w0) ∧
    (Err.range = Err.range ∧ w0 = w0) ∧
    removeStageRef 1 wInterSt 0 =
      .ok ((wInterSt.setDirty 5).updNode 0
        { (wInterSt.setDirty 5).nodes 0 with stage := none }) ∧
    (removeChildAt 0 wAtt 0 0 = .error (.noFuel, wAtt) ∧
      (Err.noFuel = Err.outOfBounds ∨ Err.noFuel = Err.noFuel)) ∧
    (removeChildren 3 wAtt 0 (some 1) (some 0) = .error (.range, wAtt) ∧
      (Err.range = Err.range ∨ Err.range = Err.noFuel)) := by
  have hE : removeChildAt 0 wAtt 0 0 = .error (.noFuel, wAtt) := by
    simp [removeChildAt, getChildAt, removeStageRef, wAtt]
  have hF : removeChildren 3 wAtt 0 (some 1) (some 0) =
      .error (.range, wAtt) := rfl
  refine ⟨?_, ?_, ?_, ?_, ⟨hE, ?_⟩, ⟨hF, ?_⟩⟩
  · refine removeStageReference_null_guard.1 0 wInter 0 wInter rfl ?_ rfl
    show removeStageRefChildren 0 wInter [] = .ok wInter
    simp only [removeStageRefChildren]
  · exact removeStageReference_null_guard.2.1 2 w0 0 0 .outOfBounds w0
      rfl rfl
  · exact removeStageReference_null_guard.2.2.1 2 w0 0 (some 2) (some 1)
      .range w0 rfl rfl
  · refine removeStageReference_null_guard.2.2.2.1 0 wInterSt 0 5 rfl rfl rfl
  · exact removeStageReference_null_guard.2.2.2.2.1 0 wAtt 0 0 .noFuel wAtt
      rAtt treeInv_wAtt rankOk_wAtt stage_wAtt hE
  · exact removeStageReference_null_guard.2.2.2.2.2 3 wAtt 0 (some 1)
      (some 0) .range wAtt rAtt treeInv_wAtt rankOk_wAtt stage_wAtt hF
